import Mathlib

/-!
Verification of the timetxt line parser (src/lib.rs).

The Rust code is shallowly embedded over `List Char`.  Strings are modelled
as character lists (the source only ever handles ASCII data, where Rust's
byte indices and character indices coincide).  `chrono`'s
`NaiveTime::parse_from_str` with format `%H:%M` and
`NaiveDate::parse_from_str` with format `%Y-%m-%d` are modelled following
chrono's parser: each numeric field first skips leading whitespace, then
reads one up to `width` digits (width 2 for hour, minute, month, day and 4
for an unsigned year), literals must match exactly, the whole input must be
consumed, and the resulting field values are validated (hour 0-23,
minute 0-59, month 1-12, day bounded by the calendar month length).
`HashMap` contents are modelled as an association list in first-insertion
order; since Rust's `HashMap` iteration order is arbitrary, the `Display`
implementation is modelled as a rendering function over an arbitrary
permutation of that association list.
-/

namespace Timetxt

/-- The error type of the Rust parser.  `parseError` stands for any
`chrono::ParseError` propagated through `From` (the embedded model does not
track chrono's message); `timeNotFound` carries the reason string built in
`find_duration`. -/
inductive TimeError where
  | parseError : TimeError
  | timeNotFound : String → TimeError
deriving DecidableEq, Repr

/-- Model of `chrono::NaiveTime` restricted to what the program uses:
an hour and a minute (seconds are always zero for `%H:%M` input). -/
structure NaiveTime where
  hour : Nat
  minute : Nat
deriving DecidableEq, Repr

/-- Model of `chrono::NaiveDate`: a calendar date. -/
structure NaiveDate where
  year : Int
  month : Nat
  day : Nat
deriving DecidableEq, Repr

/-- The transient `Duration` struct of lib.rs. -/
structure Duration where
  start : NaiveTime
  «end» : NaiveTime
deriving DecidableEq, Repr

/-- The `TimeEntry` struct of lib.rs. -/
structure TimeEntry where
  date : NaiveDate
  start : NaiveTime
  «end» : NaiveTime
  description : List Char
deriving DecidableEq, Repr

/-- The `Time` struct of lib.rs.  The `HashMap<NaiveDate, Vec<TimeEntry>>`
is modelled as an association list in first-insertion order; keys are
unique by construction. -/
structure Time where
  entries : List (NaiveDate × List TimeEntry)
deriving DecidableEq, Repr

/-- The character for a decimal digit `n < 10`. -/
def digitChar (n : Nat) : Char := Char.ofNat (48 + n)

/-- Two-digit zero-padded decimal rendering (used by `%H`, `%M`, `%m`, `%d`
formatting; all rendered values are below 100). -/
def pad2 (n : Nat) : List Char := [digitChar (n / 10 % 10), digitChar (n % 10)]

/-- Four-digit zero-padded decimal rendering (used by `%Y` for years
0 through 9999). -/
def pad4 (n : Nat) : List Char :=
  [digitChar (n / 1000 % 10), digitChar (n / 100 % 10),
   digitChar (n / 10 % 10), digitChar (n % 10)]

/-- Decimal digits of `n` (most significant first), fuel-driven. -/
def natDigitsAux : Nat → Nat → List Char
  | 0, _ => []
  | fuel + 1, n =>
    if n < 10 then [digitChar n]
    else natDigitsAux fuel (n / 10) ++ [digitChar (n % 10)]

/-- Decimal digits of `n`, most significant first. -/
def natDigits (n : Nat) : List Char := natDigitsAux (n + 1) n

/-- Remove leading whitespace characters (Rust `char::is_whitespace` on the
ASCII data handled here). -/
def trimLeft : List Char → List Char
  | [] => []
  | c :: cs => if c.isWhitespace then trimLeft cs else c :: cs

/-- Rust `str::trim`: remove leading and trailing whitespace. -/
def rustTrim (l : List Char) : List Char :=
  (trimLeft ((trimLeft l).reverse)).reverse

/-- Greedily consume at most `n` leading decimal digits, returning them and
the rest of the input (chrono `scan::number` with minimum 1 digit checked by
the caller). -/
def takeDigits : Nat → List Char → List Char × List Char
  | 0, l => ([], l)
  | _ + 1, [] => ([], [])
  | n + 1, c :: cs =>
    if c.isDigit then
      let (ds, r) := takeDigits n cs
      (c :: ds, r)
    else ([], c :: cs)

/-- Greedily consume all leading decimal digits (chrono's unbounded-width
signed-year scan). -/
def takeDigitsAll : List Char → List Char × List Char
  | [] => ([], [])
  | c :: cs =>
    if c.isDigit then
      let (ds, r) := takeDigitsAll cs
      (c :: ds, r)
    else ([], c :: cs)

/-- Numeric value of a digit string (most significant first). -/
def digitsToNat (l : List Char) : Nat :=
  l.foldl (fun a c => a * 10 + (c.toNat - 48)) 0

/-- `chrono::NaiveTime::parse_from_str(s, "%H:%M")`: skip whitespace, read
1-2 digits (hour), match `:`, skip whitespace, read 1-2 digits (minute),
require the input to be exhausted, validate hour 0-23 and minute 0-59. -/
def parseHM (s : List Char) : Option NaiveTime :=
  let s0 := trimLeft s
  let p1 := takeDigits 2 s0
  if p1.1 = [] then none
  else
    match p1.2 with
    | ':' :: r2 =>
      let p2 := takeDigits 2 (trimLeft r2)
      if p2.1 = [] then none
      else if p2.2 = [] then
        let h := digitsToNat p1.1
        let m := digitsToNat p2.1
        if h ≤ 23 ∧ m ≤ 59 then some ⟨h, m⟩ else none
      else none
    | _ => none

/-- Gregorian leap-year test (as in chrono's calendar arithmetic). -/
def isLeap (y : Int) : Bool := (y % 4 == 0 && y % 100 != 0) || y % 400 == 0

/-- Number of days of month `m` in year `y`. -/
def daysInMonth (y : Int) (m : Nat) : Nat :=
  if m = 2 then (if isLeap y then 29 else 28)
  else if m = 4 ∨ m = 6 ∨ m = 9 ∨ m = 11 then 30
  else 31

/-- Continuation of `%Y-%m-%d` parsing after the year digits have been
scanned: match `-`, month, `-`, day, require exhaustion, validate month and
day against the calendar. -/
def parseDateTail (y : Int) : List Char × List Char → Option NaiveDate
  | (yd, rest) =>
    if yd = [] then none
    else
      match rest with
      | '-' :: r1 =>
        let pm := takeDigits 2 (trimLeft r1)
        if pm.1 = [] then none
        else
          match pm.2 with
          | '-' :: r3 =>
            let pd := takeDigits 2 (trimLeft r3)
            if pd.1 = [] then none
            else if pd.2 = [] then
              let m := digitsToNat pm.1
              let d := digitsToNat pd.1
              if 1 ≤ m ∧ m ≤ 12 ∧ 1 ≤ d ∧ d ≤ daysInMonth y m then
                some ⟨y, m, d⟩
              else none
            else none
          | _ => none
      | _ => none

/-- `chrono::NaiveDate::parse_from_str(s, "%Y-%m-%d")`.  The year accepts
an optional sign; without a sign at most four digits are read, with a sign
arbitrarily many (chrono's signed-year scan). -/
def parseDate (s : List Char) : Option NaiveDate :=
  match trimLeft s with
  | [] => none
  | c :: r =>
    if c = '-' then
      let p := takeDigitsAll r
      parseDateTail (-(digitsToNat p.1 : Int)) p
    else if c = '+' then
      let p := takeDigitsAll r
      parseDateTail (digitsToNat p.1 : Int) p
    else
      let p := takeDigits 4 (c :: r)
      parseDateTail (digitsToNat p.1 : Int) p

/-- Number of space characters in a line. -/
def countSpaces : List Char → Nat
  | [] => 0
  | c :: cs => (if c = ' ' then 1 else 0) + countSpaces cs

/-- Split on `'\n'`, keeping (possibly empty) segments; always returns at
least one segment. -/
def splitNl : List Char → List (List Char)
  | [] => [[]]
  | c :: cs =>
    if c = '\n' then [] :: splitNl cs
    else
      match splitNl cs with
      | [] => [[c]]
      | s :: ss => (c :: s) :: ss

/-- Strip one trailing `'\r'` if present (Rust `lines()` behaviour for
`\r\n` endings). -/
def stripCR (l : List Char) : List Char :=
  match l.reverse with
  | [] => l
  | c :: r => if c = '\r' then r.reverse else l

/-- Assemble the segments produced by `splitNl` the way Rust `str::lines`
does: the final segment is dropped when empty (trailing newline) and kept
verbatim otherwise; every earlier segment was terminated by `'\n'` and has
a trailing `'\r'` stripped. -/
def rustLinesAux : List (List Char) → List (List Char)
  | [] => []
  | [l] => if l = [] then [] else [l]
  | l :: ls => stripCR l :: rustLinesAux ls

/-- Rust `str::lines`. -/
def rustLines (s : List Char) : List (List Char) := rustLinesAux (splitNl s)

/-- Rust `line.starts_with("//")`. -/
def startsWithSlashes : List Char → Bool
  | c :: c' :: _ => c == '/' && c' == '/'
  | _ => false

/-- The mutable locals of the `find_duration` scanning loop. -/
structure FDState where
  numSpaces : Nat
  startTime : Option NaiveTime
  endTime : Option NaiveTime
  startSpace : Nat
  endSpace : Nat
deriving DecidableEq, Repr

/-- The `num_of_spaces == 1` block of the `find_duration` loop: on the
first space, require index `>= 4`, then parse `line[0..i]` as the start
time. -/
def findStepStart (line : List Char) (i : Nat) (n : Nat) (st1 : FDState) :
    Except TimeError FDState :=
  if n = 1 ∧ st1.startSpace = 0 then
    if i < 4 then .error (TimeError.timeNotFound "Start time not found")
    else
      match parseHM (line.take i) with
      | none => .error TimeError.parseError
      | some tv => .ok { st1 with startSpace := i, startTime := some tv }
  else .ok st1

/-- The `num_of_spaces == 2` block of the `find_duration` loop: on the
second space, require index `>= 9`, then parse
`line[start_time_space..i]` as the end time. -/
def findStepEnd (line : List Char) (i : Nat) (n : Nat) (st2 : FDState) :
    Except TimeError FDState :=
  if n = 2 ∧ st2.endSpace = 0 then
    if i < 9 then .error (TimeError.timeNotFound "End time not found")
    else
      match parseHM ((line.drop st2.startSpace).take (i - st2.startSpace)) with
      | none => .error TimeError.parseError
      | some tv => .ok { st2 with endSpace := i, endTime := some tv }
  else .ok st2

/-- The body of the `find_duration` loop for a space character at index
`i`: bump the space count, run the first-space and second-space checks
(each can fail), then report whether the loop should `break`
(`num_of_spaces > 2 || i > 11`). -/
def findStep (line : List Char) (i : Nat) (st : FDState) :
    Except TimeError (Bool × FDState) :=
  let n := st.numSpaces + 1
  match findStepStart line i n { st with numSpaces := n } with
  | .error e => .error e
  | .ok st2 =>
    match findStepEnd line i n st2 with
    | .error e => .error e
    | .ok st3 => .ok (decide (n > 2 ∨ i > 11), st3)

/-- The `for (i, c) in line.chars().enumerate()` loop of `find_duration`:
`i` is the index of the head of the remaining characters. -/
def findLoop (line : List Char) : Nat → List Char → FDState → Except TimeError FDState
  | _, [], st => .ok st
  | i, c :: cs, st =>
    if c = ' ' then
      match findStep line i st with
      | .error e => .error e
      | .ok (brk, st') => if brk then .ok st' else findLoop line (i + 1) cs st'
    else findLoop line (i + 1) cs st

/-- The code of `find_duration` after its scanning loop: require two
spaces and both extracted times, returning the index of the second space
and the `Duration`. -/
def durationResult (st : FDState) : Except TimeError (Nat × Duration) :=
  if st.numSpaces < 2 then
    .error (TimeError.timeNotFound "Neither start or end time not found")
  else
    match st.startTime, st.endTime with
    | some stv, some etv => .ok (st.endSpace, ⟨stv, etv⟩)
    | none, _ => .error (TimeError.timeNotFound "Start time not found")
    | _, none => .error (TimeError.timeNotFound "End time not found")

/-- `find_duration` of lib.rs: scan the line, then post-process the loop
state. -/
def find_duration (line : List Char) : Except TimeError (Nat × Duration) :=
  match findLoop line 0 line ⟨0, none, none, 0, 0⟩ with
  | .error e => .error e
  | .ok st => durationResult st

/-- `t.entries.entry(d).or_insert_with(|| vec![]).push(e)`: append `e` to
the vector stored under `d`, creating the key (at the end, i.e. in
insertion order) if absent. -/
def insertEntry : List (NaiveDate × List TimeEntry) → NaiveDate → TimeEntry →
    List (NaiveDate × List TimeEntry)
  | [], d, e => [(d, [e])]
  | (k, es) :: rest, d, e =>
    if k = d then (k, es ++ [e]) :: rest
    else (k, es) :: insertEntry rest d e

/-- The keys of the association list modelling the `HashMap`. -/
def logKeys (l : List (NaiveDate × List TimeEntry)) : List NaiveDate :=
  l.map Prod.fst

/-- One iteration of the line loop of `parse_time`, acting on the current
date context and accumulated `Time`. -/
def parseStep (st : Option NaiveDate × Time) (line : List Char) :
    Except TimeError (Option NaiveDate × Time) :=
  if startsWithSlashes line || line.isEmpty then .ok st
  else if line.length < 9 then .ok st
  else
    match parseDate line with
    | some d => .ok (some d, st.2)
    | none =>
      match find_duration line with
      | .error e => .error e
      | .ok (idx, dur) =>
        let desc := rustTrim (line.drop idx)
        match st.1 with
        | none => .ok st
        | some d =>
          .ok (some d, ⟨insertEntry st.2.entries d ⟨d, dur.start, dur.«end», desc⟩⟩)

/-- The line loop of `parse_time`, threading the state through the lines
and aborting on the first error. -/
def parseSteps : (Option NaiveDate × Time) → List (List Char) →
    Except TimeError (Option NaiveDate × Time)
  | st, [] => .ok st
  | st, l :: ls =>
    match parseStep st l with
    | .error e => .error e
    | .ok st' => parseSteps st' ls

/-- `parse_time` of lib.rs. -/
def parse_time (contents : List Char) : Except TimeError Time :=
  match parseSteps (none, ⟨[]⟩) (rustLines contents) with
  | .error e => .error e
  | .ok st => .ok st.2

/-- `NaiveTime` formatted with `%H:%M` (zero-padded two-digit fields). -/
def formatHM (v : NaiveTime) : List Char := pad2 v.hour ++ ':' :: pad2 v.minute

/-- `impl fmt::Display for TimeEntry`: `"{start} {end} {description}"`. -/
def renderTimeEntry (e : TimeEntry) : List Char :=
  formatHM e.start ++ ' ' :: formatHM e.«end» ++ ' ' :: e.description

/-- `%Y` formatting of a year: zero-padded to four digits, full decimal
expansion beyond 9999, sign for negative years. -/
def formatYear (y : Int) : List Char :=
  if y < 0 then
    '-' :: (if y.natAbs ≤ 9999 then pad4 y.natAbs else natDigits y.natAbs)
  else if y.toNat ≤ 9999 then pad4 y.toNat
  else natDigits y.toNat

/-- `NaiveDate` formatted with `%Y-%m-%d`. -/
def renderDate (d : NaiveDate) : List Char :=
  formatYear d.year ++ '-' :: pad2 d.month ++ '-' :: pad2 d.day

/-- Concatenation of the images of a list (explicit structural version of
`List.flatMap`, kept local to ease proofs). -/
def concatMap (f : α → List β) : List α → List β
  | [] => []
  | a :: as => f a ++ concatMap f as

/-- `impl fmt::Display for Time` for one map slot: the date line followed
by its entries, each on its own line. -/
def renderBlock (b : NaiveDate × List TimeEntry) : List Char :=
  renderDate b.1 ++ '\n' :: concatMap (fun e => renderTimeEntry e ++ ['\n']) b.2

/-- `impl fmt::Display for Time` for a given iteration order of the map:
the concatenation of each slot's block.  The Rust `HashMap` iteration order
is an arbitrary permutation of the stored slots, so the observable outputs
of `Display` are exactly `renderPairs π` for permutations `π` of
`Time.entries`. -/
def renderPairs (pairs : List (NaiveDate × List TimeEntry)) : List Char :=
  concatMap renderBlock pairs

/-- A wall-clock time as stored by chrono (`%H:%M` parsing only produces
such values). -/
def validTime (v : NaiveTime) : Prop := v.hour ≤ 23 ∧ v.minute ≤ 59

instance (v : NaiveTime) : Decidable (validTime v) := by
  unfold validTime; infer_instance

/-- A calendar date rendered as exactly `YYYY-MM-DD` (four-digit year). -/
def validDate (d : NaiveDate) : Prop :=
  0 ≤ d.year ∧ d.year ≤ 9999 ∧ 1 ≤ d.month ∧ d.month ≤ 12 ∧
    1 ≤ d.day ∧ d.day ≤ daysInMonth d.year d.month

instance (d : NaiveDate) : Decidable (validDate d) := by
  unfold validDate; infer_instance

/-- An entry in canonical form under date `d`: its stored date is `d`, its
times are valid wall-clock times, and its description is already trimmed
and free of newlines. -/
def canonEntry (d : NaiveDate) (e : TimeEntry) : Prop :=
  e.date = d ∧ validTime e.start ∧ validTime e.«end» ∧
    rustTrim e.description = e.description ∧ '\n' ∉ e.description

instance (d : NaiveDate) (e : TimeEntry) : Decidable (canonEntry d e) := by
  unfold canonEntry; infer_instance

/-- A date block in canonical form: a valid `YYYY-MM-DD` date followed by
at least one canonical entry. -/
def canonBlock (b : NaiveDate × List TimeEntry) : Prop :=
  validDate b.1 ∧ b.2 ≠ [] ∧ ∀ e ∈ b.2, canonEntry b.1 e

instance (b : NaiveDate × List TimeEntry) : Decidable (canonBlock b) := by
  unfold canonBlock; infer_instance

/-- A canonical time log: canonical date blocks with pairwise distinct
dates.  `renderPairs` of such a log is precisely a text in canonical form
(date lines `YYYY-MM-DD`, each followed by its `HH:MM HH:MM desc` entry
lines, zero-padded, single spaces, no comments or blanks). -/
def canonLog (bs : List (NaiveDate × List TimeEntry)) : Prop :=
  (∀ b ∈ bs, canonBlock b) ∧ (bs.map Prod.fst).Nodup

instance (bs : List (NaiveDate × List TimeEntry)) : Decidable (canonLog bs) := by
  unfold canonLog; infer_instance

/-- A time token as accepted by claim C3: `H:MM` (one-digit 24-hour hour)
or `HH:MM` (two-digit hour), with two-digit minutes. -/
def TimeTok (t : List Char) (v : NaiveTime) : Prop :=
  (v.hour < 10 ∧ t = digitChar v.hour :: ':' :: pad2 v.minute) ∨ t = formatHM v

instance (t : List Char) (v : NaiveTime) : Decidable (TimeTok t v) := by
  unfold TimeTok; infer_instance

instance {ε α : Type} [DecidableEq ε] [DecidableEq α] : DecidableEq (Except ε α) :=
  fun a b =>
    match a, b with
    | .error e, .error e' =>
      if h : e = e' then .isTrue (by rw [h]) else .isFalse (by intro hc; cases hc; exact h rfl)
    | .ok v, .ok v' =>
      if h : v = v' then .isTrue (by rw [h]) else .isFalse (by intro hc; cases hc; exact h rfl)
    | .error _, .ok _ => .isFalse (by intro hc; cases hc)
    | .ok _, .error _ => .isFalse (by intro hc; cases hc)

/-! ### Digit characters and padded numerals -/

theorem digitChar_isDigit : ∀ n, n < 10 → (digitChar n).isDigit = true := by decide

theorem digitChar_toNat : ∀ n, n < 10 → (digitChar n).toNat = 48 + n := by decide

theorem digitChar_not_ws : ∀ n, n < 10 → (digitChar n).isWhitespace = false := by decide

theorem digitChar_ne_lf : ∀ n, n < 10 → digitChar n ≠ '\n' := by decide

theorem digitChar_ne_cr : ∀ n, n < 10 → digitChar n ≠ '\r' := by decide

theorem digitChar_ne_space : ∀ n, n < 10 → digitChar n ≠ ' ' := by decide

theorem digitChar_ne_slash : ∀ n, n < 10 → digitChar n ≠ '/' := by decide

theorem digitChar_ne_dash : ∀ n, n < 10 → digitChar n ≠ '-' := by decide

theorem digitChar_ne_plus : ∀ n, n < 10 → digitChar n ≠ '+' := by decide

theorem digitChar_ne_colon : ∀ n, n < 10 → digitChar n ≠ ':' := by decide

theorem mod10_lt (n : Nat) : n % 10 < 10 := Nat.mod_lt _ (by norm_num)

theorem pad2_digits (n : Nat) : ∀ c ∈ pad2 n, c.isDigit = true := by
  intro c hc
  simp only [pad2, List.mem_cons, List.mem_singleton, List.not_mem_nil, or_false] at hc
  rcases hc with h | h <;> subst h <;> exact digitChar_isDigit _ (mod10_lt _)

theorem pad4_digits (n : Nat) : ∀ c ∈ pad4 n, c.isDigit = true := by
  intro c hc
  simp only [pad4, List.mem_cons, List.mem_singleton, List.not_mem_nil, or_false] at hc
  rcases hc with h | h | h | h <;> subst h <;> exact digitChar_isDigit _ (mod10_lt _)

theorem digitsToNat_cons (c : Char) (l : List Char) :
    digitsToNat (c :: l) = l.foldl (fun a c => a * 10 + (c.toNat - 48)) (c.toNat - 48) := by
  simp [digitsToNat, List.foldl]

theorem digitsToNat_pad2 {n : Nat} (h : n ≤ 99) : digitsToNat (pad2 n) = n := by
  have h1 := digitChar_toNat _ (mod10_lt (n / 10))
  have h2 := digitChar_toNat _ (mod10_lt n)
  simp only [pad2, digitsToNat, List.foldl, h1, h2]
  omega

theorem digitsToNat_pad4 {n : Nat} (h : n ≤ 9999) : digitsToNat (pad4 n) = n := by
  have h1 := digitChar_toNat _ (mod10_lt (n / 1000))
  have h2 := digitChar_toNat _ (mod10_lt (n / 100))
  have h3 := digitChar_toNat _ (mod10_lt (n / 10))
  have h4 := digitChar_toNat _ (mod10_lt n)
  simp only [pad4, digitsToNat, List.foldl, h1, h2, h3, h4]
  omega

theorem digitsToNat_single {n : Nat} (h : n < 10) : digitsToNat [digitChar n] = n := by
  simp only [digitsToNat, List.foldl, digitChar_toNat _ h]
  omega

/-! ### Trimming -/

theorem trimLeft_cons_of_not_ws {c : Char} {cs : List Char} (h : c.isWhitespace = false) :
    trimLeft (c :: cs) = c :: cs := by
  simp [trimLeft, h]

theorem trimLeft_cons_of_ws {c : Char} {cs : List Char} (h : c.isWhitespace = true) :
    trimLeft (c :: cs) = trimLeft cs := by
  simp [trimLeft, h]

theorem trimLeft_head_not_ws :
    ∀ {l : List Char} {c : Char}, (trimLeft l).head? = some c → c.isWhitespace = false := by
  intro l
  induction l with
  | nil => intro c hc; simp [trimLeft] at hc
  | cons a as ih =>
    intro c hc
    by_cases hws : a.isWhitespace = true
    · rw [trimLeft_cons_of_ws hws] at hc
      exact ih hc
    · rw [trimLeft_cons_of_not_ws (by simpa using hws)] at hc
      simp only [List.head?_cons, Option.some_inj] at hc
      subst hc
      simpa using hws

theorem rustTrim_cons_space (l : List Char) : rustTrim (' ' :: l) = rustTrim l := by
  have h : trimLeft (' ' :: l) = trimLeft l := trimLeft_cons_of_ws (by decide)
  simp [rustTrim, h]

theorem rustTrim_fixed_getLast {l : List Char} (h : rustTrim l = l) :
    ∀ {c : Char}, l.getLast? = some c → c.isWhitespace = false := by
  intro c hc
  have h' : trimLeft ((trimLeft l).reverse) = l.reverse := by
    have := congrArg List.reverse h
    simpa [rustTrim] using this
  have hl : l.reverse.head? = some c := by
    rw [List.head?_reverse]; exact hc
  rw [← h'] at hl
  exact trimLeft_head_not_ws hl

/-! ### Digit scanning -/

theorem takeDigits_append :
    ∀ (ds : List Char) (n : Nat) (rest : List Char),
      (∀ c ∈ ds, c.isDigit = true) → ds.length ≤ n →
      (rest = [] ∨ ∃ c cs, rest = c :: cs ∧ c.isDigit = false) →
      takeDigits n (ds ++ rest) = (ds, rest) := by
  intro ds
  induction ds with
  | nil =>
    intro n rest _ _ hrest
    rcases hrest with h | ⟨c, cs, rfl, hc⟩
    · subst h; cases n <;> simp [takeDigits]
    · cases n <;> simp [takeDigits, hc]
  | cons d ds' ih =>
    intro n rest hdig hlen hrest
    obtain ⟨n', rfl⟩ : ∃ n', n = n' + 1 := by
      cases n with
      | zero => simp at hlen
      | succ k => exact ⟨k, rfl⟩
    have hd : d.isDigit = true := hdig d (by simp)
    have := ih n' rest (fun c hc => hdig c (by simp [hc])) (by simpa using hlen) hrest
    simp [takeDigits, hd, this]

/-! ### Shape lemmas for padded numerals -/

theorem pad2_cons (n : Nat) (rest : List Char) :
    pad2 n ++ rest = digitChar (n / 10 % 10) :: digitChar (n % 10) :: rest := by
  simp [pad2]

theorem pad4_cons (n : Nat) (rest : List Char) :
    pad4 n ++ rest = digitChar (n / 1000 % 10) :: digitChar (n / 100 % 10) ::
      digitChar (n / 10 % 10) :: digitChar (n % 10) :: rest := by
  simp [pad4]

theorem pad2_ne_nil (n : Nat) : pad2 n ≠ [] := by simp [pad2]

theorem pad4_ne_nil (n : Nat) : pad4 n ≠ [] := by simp [pad4]

theorem pad2_length (n : Nat) : (pad2 n).length = 2 := rfl

theorem pad4_length (n : Nat) : (pad4 n).length = 4 := rfl

theorem trimLeft_pad2_append (n : Nat) (rest : List Char) :
    trimLeft (pad2 n ++ rest) = pad2 n ++ rest := by
  rw [pad2_cons]
  exact trimLeft_cons_of_not_ws (digitChar_not_ws _ (mod10_lt _))

theorem trimLeft_pad4_append (n : Nat) (rest : List Char) :
    trimLeft (pad4 n ++ rest) = pad4 n ++ rest := by
  rw [pad4_cons]
  exact trimLeft_cons_of_not_ws (digitChar_not_ws _ (mod10_lt _))

/-! ### Time parsing round trips -/

theorem parseHM_formatHM {v : NaiveTime} (hv : validTime v) : parseHM (formatHM v) = some v := by
  obtain ⟨hh, hm⟩ := hv
  have tk1 : takeDigits 2 (pad2 v.hour ++ ':' :: pad2 v.minute) =
      (pad2 v.hour, ':' :: pad2 v.minute) :=
    takeDigits_append _ 2 _ (pad2_digits _) (by simp [pad2_length])
      (Or.inr ⟨':', _, rfl, by decide⟩)
  have tk2 : takeDigits 2 (pad2 v.minute) = (pad2 v.minute, []) := by
    have := takeDigits_append (pad2 v.minute) 2 [] (pad2_digits _) (by simp [pad2_length])
      (Or.inl rfl)
    simpa using this
  have tl2 : trimLeft (pad2 v.minute) = pad2 v.minute := by
    have := trimLeft_pad2_append v.minute []
    simpa using this
  have d1 : digitsToNat (pad2 v.hour) = v.hour := digitsToNat_pad2 (by omega)
  have d2 : digitsToNat (pad2 v.minute) = v.minute := digitsToNat_pad2 (by omega)
  simp [parseHM, formatHM, trimLeft_pad2_append, tk1, tk2, tl2, d1, d2,
    pad2_ne_nil, hh, hm]

theorem parseHM_short {v : NaiveTime} (h10 : v.hour < 10) (hv : validTime v) :
    parseHM (digitChar v.hour :: ':' :: pad2 v.minute) = some v := by
  obtain ⟨hh, hm⟩ := hv
  have tk1 : takeDigits 2 ([digitChar v.hour] ++ ':' :: pad2 v.minute) =
      ([digitChar v.hour], ':' :: pad2 v.minute) :=
    takeDigits_append _ 2 _ (by simpa using digitChar_isDigit _ h10) (by simp)
      (Or.inr ⟨':', _, rfl, by decide⟩)
  have tk2 : takeDigits 2 (pad2 v.minute) = (pad2 v.minute, []) := by
    have := takeDigits_append (pad2 v.minute) 2 [] (pad2_digits _) (by simp [pad2_length])
      (Or.inl rfl)
    simpa using this
  have tl2 : trimLeft (pad2 v.minute) = pad2 v.minute := by
    have := trimLeft_pad2_append v.minute []
    simpa using this
  have tl1 : trimLeft (digitChar v.hour :: ':' :: pad2 v.minute) =
      digitChar v.hour :: ':' :: pad2 v.minute :=
    trimLeft_cons_of_not_ws (digitChar_not_ws _ h10)
  have d1 : digitsToNat [digitChar v.hour] = v.hour := digitsToNat_single h10
  have d2 : digitsToNat (pad2 v.minute) = v.minute := digitsToNat_pad2 (by omega)
  simp only [List.singleton_append] at tk1
  simp [parseHM, tl1, tk1, tk2, tl2, d1, d2, hh, hm, pad2_ne_nil]

theorem parseHM_cons_space (s : List Char) : parseHM (' ' :: s) = parseHM s := by
  have h : trimLeft (' ' :: s) = trimLeft s := trimLeft_cons_of_ws (by decide)
  simp [parseHM, h]

theorem parseHM_timeTok {t : List Char} {v : NaiveTime} (ht : TimeTok t v)
    (hv : validTime v) : parseHM t = some v := by
  rcases ht with ⟨h10, rfl⟩ | rfl
  · exact parseHM_short h10 hv
  · exact parseHM_formatHM hv

/-! ### Date parsing round trips -/

theorem daysInMonth_le (y : Int) (m : Nat) : daysInMonth y m ≤ 31 := by
  unfold daysInMonth
  split_ifs <;> omega

theorem parseDate_renderDate {d : NaiveDate} (hd : validDate d) :
    parseDate (renderDate d) = some d := by
  obtain ⟨hy0, hy9, hm1, hm12, hd1, hdm⟩ := hd
  have hyt : d.year.toNat ≤ 9999 := by omega
  have e0 : renderDate d = pad4 d.year.toNat ++ '-' :: (pad2 d.month ++ '-' :: pad2 d.day) := by
    simp [renderDate, formatYear, not_lt.mpr hy0, hyt]
  have tk1 : takeDigits 4 (pad4 d.year.toNat ++ '-' :: (pad2 d.month ++ '-' :: pad2 d.day)) =
      (pad4 d.year.toNat, '-' :: (pad2 d.month ++ '-' :: pad2 d.day)) :=
    takeDigits_append _ 4 _ (pad4_digits _) (by simp [pad4_length])
      (Or.inr ⟨'-', _, rfl, by decide⟩)
  have tk2 : takeDigits 2 (pad2 d.month ++ '-' :: pad2 d.day) =
      (pad2 d.month, '-' :: pad2 d.day) :=
    takeDigits_append _ 2 _ (pad2_digits _) (by simp [pad2_length])
      (Or.inr ⟨'-', _, rfl, by decide⟩)
  have tk3 : takeDigits 2 (pad2 d.day) = (pad2 d.day, []) := by
    have := takeDigits_append (pad2 d.day) 2 [] (pad2_digits _) (by simp [pad2_length])
      (Or.inl rfl)
    simpa using this
  have tl3 : trimLeft (pad2 d.day) = pad2 d.day := by
    have := trimLeft_pad2_append d.day []
    simpa using this
  have dy : digitsToNat (pad4 d.year.toNat) = d.year.toNat := digitsToNat_pad4 hyt
  have dmn : digitsToNat (pad2 d.month) = d.month := digitsToNat_pad2 (by omega)
  have hd31 : d.day ≤ 31 := le_trans hdm (daysInMonth_le _ _)
  have dd : digitsToNat (pad2 d.day) = d.day := digitsToNat_pad2 (by omega)
  have hyy : ((d.year.toNat : Nat) : Int) = d.year := Int.toNat_of_nonneg hy0
  rw [e0, parseDate]
  rw [trimLeft_pad4_append, pad4_cons]
  simp only [digitChar_ne_dash _ (mod10_lt _), digitChar_ne_plus _ (mod10_lt _), if_false]
  rw [← pad4_cons, tk1]
  simp only [parseDateTail, pad4_ne_nil, if_false, trimLeft_pad2_append, tk2,
    pad2_ne_nil, tk3, tl3, dy, dmn, dd, hyy]
  simp [hm1, hm12, hd1, hdm]

theorem parseDate_digit_colon (x y : Nat) (r : List Char) (hx : x < 10) (hy : y < 10) :
    parseDate (digitChar x :: digitChar y :: ':' :: r) = none := by
  have tl : trimLeft (digitChar x :: digitChar y :: ':' :: r) =
      digitChar x :: digitChar y :: ':' :: r :=
    trimLeft_cons_of_not_ws (digitChar_not_ws _ hx)
  have tk : takeDigits 4 ([digitChar x, digitChar y] ++ ':' :: r) =
      ([digitChar x, digitChar y], ':' :: r) :=
    takeDigits_append _ 4 _
      (by
        intro c hc
        simp only [List.mem_cons, List.mem_singleton, List.not_mem_nil, or_false] at hc
        rcases hc with h | h <;> subst h
        · exact digitChar_isDigit _ hx
        · exact digitChar_isDigit _ hy)
      (by simp) (Or.inr ⟨':', _, rfl, by decide⟩)
  simp only [List.cons_append, List.singleton_append, List.nil_append] at tk
  rw [parseDate, tl]
  simp only [digitChar_ne_dash _ hx, digitChar_ne_plus _ hx, if_false, tk]
  simp [parseDateTail]

theorem parseDate_renderTimeEntry (e : TimeEntry) :
    parseDate (renderTimeEntry e) = none := by
  have e0 : renderTimeEntry e = digitChar (e.start.hour / 10 % 10) ::
      digitChar (e.start.hour % 10) :: ':' ::
      (pad2 e.start.minute ++ ' ' :: formatHM e.«end» ++ ' ' :: e.description) := by
    simp [renderTimeEntry, formatHM, pad2]
  rw [e0]
  exact parseDate_digit_colon _ _ _ (mod10_lt _) (mod10_lt _)

/-! ### Splitting into lines -/

theorem splitNl_ne_nil : ∀ l : List Char, splitNl l ≠ [] := by
  intro l
  cases l with
  | nil => simp [splitNl]
  | cons c cs =>
    by_cases hc : c = '\n'
    · simp [splitNl, hc]
    · simp only [splitNl, if_neg hc]
      cases splitNl cs <;> simp

theorem splitNl_append (l : List Char) (rest : List Char) (h : '\n' ∉ l) :
    splitNl (l ++ '\n' :: rest) = l :: splitNl rest := by
  induction l with
  | nil => simp [splitNl]
  | cons c l' ih =>
    have hc : c ≠ '\n' := by intro hh; exact h (by simp [hh])
    have ih' := ih (by intro hh; exact h (by simp [hh]))
    simp only [List.cons_append, splitNl, if_neg hc, List.append_eq, ih']

theorem stripCR_of_getLast {l : List Char} (h : ∀ c, l.getLast? = some c → c ≠ '\r') :
    stripCR l = l := by
  unfold stripCR
  cases hrev : l.reverse with
  | nil => rfl
  | cons c r =>
    have hc : l.getLast? = some c := by
      rw [← List.head?_reverse, hrev]; rfl
    simp [h c hc]

theorem rustLines_concat :
    ∀ ls : List (List Char), (∀ l ∈ ls, '\n' ∉ l ∧ stripCR l = l) →
      rustLines (concatMap (fun l => l ++ ['\n']) ls) = ls := by
  intro ls
  induction ls with
  | nil => intro _; rfl
  | cons l rest ih =>
    intro h
    have hl := h l (by simp)
    have hconcat : concatMap (fun l => l ++ ['\n']) (l :: rest) =
        l ++ '\n' :: concatMap (fun l => l ++ ['\n']) rest := by
      simp [concatMap]
    have hsplit := splitNl_append l (concatMap (fun l => l ++ ['\n']) rest) hl.1
    rw [rustLines, hconcat, hsplit]
    have hrest := ih (fun x hx => h x (by simp [hx]))
    cases hs : splitNl (concatMap (fun l => l ++ ['\n']) rest) with
    | nil => exact absurd hs (splitNl_ne_nil _)
    | cons s ss =>
      have : rustLinesAux (l :: s :: ss) = stripCR l :: rustLinesAux (s :: ss) := rfl
      rw [this, hl.2]
      rw [rustLines, hs] at hrest
      rw [hrest]

/-! ### The find_duration scanning loop -/

theorem fdstate_eta (st : FDState) : ({ st with numSpaces := st.numSpaces } : FDState) = st := rfl

theorem findLoop_nil (line : List Char) (i : Nat) (st : FDState) :
    findLoop line i [] st = .ok st := rfl

theorem findLoop_cons_space (line : List Char) (i : Nat) (cs : List Char) (st : FDState) :
    findLoop line i (' ' :: cs) st =
      match findStep line i st with
      | .error e => .error e
      | .ok (brk, st') => if brk then .ok st' else findLoop line (i + 1) cs st' := by
  simp [findLoop]

theorem findLoop_cons_not_space {c : Char} (hc : c ≠ ' ') (line : List Char) (i : Nat)
    (cs : List Char) (st : FDState) :
    findLoop line i (c :: cs) st = findLoop line (i + 1) cs st := by
  simp [findLoop, hc]

theorem findLoop_no_space (line : List Char) :
    ∀ (seg : List Char), (∀ c ∈ seg, c ≠ ' ') → ∀ (i : Nat) (cs : List Char) (st : FDState),
      findLoop line i (seg ++ cs) st = findLoop line (i + seg.length) cs st := by
  intro seg
  induction seg with
  | nil => intro _ i cs st; simp
  | cons c seg' ih =>
    intro h i cs st
    have hc : c ≠ ' ' := h c (by simp)
    rw [List.cons_append, findLoop_cons_not_space hc,
      ih (fun x hx => h x (by simp [hx])) (i + 1) cs st]
    congr 1
    simp [List.length_cons]
    omega

theorem findLoop_all_not_space (line : List Char) (rest : List Char)
    (h : ∀ c ∈ rest, c ≠ ' ') (i : Nat) (st : FDState) :
    findLoop line i rest st = .ok st := by
  have := findLoop_no_space line rest h i [] st
  simp only [List.append_nil] at this
  rw [this, findLoop_nil]

theorem findStepStart_skip {n : Nat} (hn : n ≠ 1) (line : List Char) (i : Nat)
    (st1 : FDState) : findStepStart line i n st1 = .ok st1 := by
  unfold findStepStart
  rw [if_neg]
  intro hcon
  exact hn hcon.1

theorem findStepEnd_skip {n : Nat} (hn : n ≠ 2) (line : List Char) (i : Nat)
    (st2 : FDState) : findStepEnd line i n st2 = .ok st2 := by
  unfold findStepEnd
  rw [if_neg]
  intro hcon
  exact hn hcon.1

theorem findStep_ge2 (line : List Char) (i : Nat) {st : FDState} (h : 2 ≤ st.numSpaces) :
    findStep line i st = .ok (true, { st with numSpaces := st.numSpaces + 1 }) := by
  have h3 : st.numSpaces + 1 > 2 ∨ i > 11 := Or.inl (by omega)
  simp only [findStep, findStepStart_skip (by omega : st.numSpaces + 1 ≠ 1),
    findStepEnd_skip (by omega : st.numSpaces + 1 ≠ 2)]
  simp [h3]

theorem findLoop_post (line : List Char) :
    ∀ (rest : List Char) (i : Nat) (st : FDState), 2 ≤ st.numSpaces →
      ∃ k, findLoop line i rest st = .ok { st with numSpaces := k } ∧ st.numSpaces ≤ k := by
  intro rest
  induction rest with
  | nil =>
    intro i st h
    exact ⟨st.numSpaces, by rw [fdstate_eta]; exact findLoop_nil line i st, le_refl _⟩
  | cons c cs ih =>
    intro i st h
    by_cases hc : c = ' '
    · subst hc
      refine ⟨st.numSpaces + 1, ?_, by omega⟩
      rw [findLoop_cons_space, findStep_ge2 line i h]
      rfl
    · rw [findLoop_cons_not_space hc]
      exact ih (i + 1) st h

theorem countSpaces_cons_space (cs : List Char) :
    countSpaces (' ' :: cs) = 1 + countSpaces cs := by
  simp [countSpaces]

theorem countSpaces_cons_not_space {c : Char} (hc : c ≠ ' ') (cs : List Char) :
    countSpaces (c :: cs) = countSpaces cs := by
  simp [countSpaces, hc]

theorem findStepStart_ok {line : List Char} {i n : Nat} {st1 st2 : FDState}
    (h : findStepStart line i n st1 = .ok st2) :
    st2.numSpaces = st1.numSpaces ∧ st2.endSpace = st1.endSpace ∧
      st2.endTime = st1.endTime := by
  unfold findStepStart at h
  split at h
  · split at h
    · cases h
    · split at h
      · cases h
      · simp only [Except.ok.injEq] at h
        subst h
        simp
  · simp only [Except.ok.injEq] at h
    subst h
    exact ⟨rfl, rfl, rfl⟩

theorem findStepEnd_ok {line : List Char} {i n : Nat} {st2 st3 : FDState}
    (h : findStepEnd line i n st2 = .ok st3) :
    st3.numSpaces = st2.numSpaces ∧ st3.startSpace = st2.startSpace ∧
      st3.startTime = st2.startTime := by
  unfold findStepEnd at h
  split at h
  · split at h
    · cases h
    · split at h
      · cases h
      · simp only [Except.ok.injEq] at h
        subst h
        simp
  · simp only [Except.ok.injEq] at h
    subst h
    exact ⟨rfl, rfl, rfl⟩

theorem findStep_numSpaces {line : List Char} {i : Nat} {st : FDState} {b : Bool}
    {st' : FDState} (h : findStep line i st = .ok (b, st')) :
    st'.numSpaces = st.numSpaces + 1 := by
  have hb : (match findStepStart line i (st.numSpaces + 1)
        { st with numSpaces := st.numSpaces + 1 } with
      | .error e => (.error e : Except TimeError (Bool × FDState))
      | .ok st2 =>
        match findStepEnd line i (st.numSpaces + 1) st2 with
        | .error e => .error e
        | .ok st3 => .ok (decide (st.numSpaces + 1 > 2 ∨ i > 11), st3)) = .ok (b, st') := h
  cases h1 : findStepStart line i (st.numSpaces + 1) { st with numSpaces := st.numSpaces + 1 } with
  | error e => rw [h1] at hb; cases hb
  | ok st2 =>
    rw [h1] at hb
    have hb2 : (match findStepEnd line i (st.numSpaces + 1) st2 with
        | .error e => (.error e : Except TimeError (Bool × FDState))
        | .ok st3 => .ok (decide (st.numSpaces + 1 > 2 ∨ i > 11), st3)) = .ok (b, st') := hb
    cases h2 : findStepEnd line i (st.numSpaces + 1) st2 with
    | error e => rw [h2] at hb2; cases hb2
    | ok st3 =>
      rw [h2] at hb2
      simp only [Except.ok.injEq, Prod.mk.injEq] at hb2
      have e1 := (findStepStart_ok h1).1
      have e2 := (findStepEnd_ok h2).1
      rw [← hb2.2, e2, e1]

theorem findLoop_numSpaces_le (line : List Char) :
    ∀ (rest : List Char) (i : Nat) (st st' : FDState),
      findLoop line i rest st = .ok st' → st'.numSpaces ≤ st.numSpaces + countSpaces rest := by
  intro rest
  induction rest with
  | nil =>
    intro i st st' h
    rw [findLoop_nil] at h
    simp only [Except.ok.injEq] at h
    subst h
    simp [countSpaces]
  | cons c cs ih =>
    intro i st st' h
    by_cases hc : c = ' '
    · subst hc
      rw [findLoop_cons_space] at h
      rw [countSpaces_cons_space]
      cases hs : findStep line i st with
      | error e => rw [hs] at h; cases h
      | ok p =>
        rw [hs] at h
        obtain ⟨b, st1⟩ := p
        have hn := findStep_numSpaces hs
        cases b with
        | true =>
          have h' : (Except.ok st1 : Except TimeError FDState) = .ok st' := h
          simp only [Except.ok.injEq] at h'
          subst h'
          omega
        | false =>
          have h' : findLoop line (i + 1) cs st1 = .ok st' := h
          have := ih (i + 1) st1 st' h'
          omega
    · rw [findLoop_cons_not_space hc] at h
      rw [countSpaces_cons_not_space hc]
      exact ih (i + 1) st st' h

/-! ### Behaviour of find_duration -/

theorem findStep_first {line : List Char} {i : Nat} {v : NaiveTime}
    (hi : ¬ i < 4) (hp : parseHM (line.take i) = some v) :
    findStep line i ⟨0, none, none, 0, 0⟩ =
      .ok (decide (i > 11), ⟨1, some v, none, i, 0⟩) := by
  have h1 : findStepStart line i 1 ⟨1, none, none, 0, 0⟩ = .ok ⟨1, some v, none, i, 0⟩ := by
    unfold findStepStart
    rw [if_pos ⟨rfl, rfl⟩, if_neg hi, hp]
  have h2 : findStepEnd line i 1 ⟨1, some v, none, i, 0⟩ = .ok ⟨1, some v, none, i, 0⟩ :=
    findStepEnd_skip (by omega) _ _ _
  simp [findStep, h1, h2]

theorem findStep_first_err {line : List Char} {i : Nat} (hi : i < 4) :
    findStep line i ⟨0, none, none, 0, 0⟩ =
      .error (TimeError.timeNotFound "Start time not found") := by
  have h1 : findStepStart line i 1 ⟨1, none, none, 0, 0⟩ =
      .error (TimeError.timeNotFound "Start time not found") := by
    unfold findStepStart
    rw [if_pos ⟨rfl, rfl⟩, if_pos hi]
  simp [findStep, h1]

theorem findStep_second {line : List Char} {i s : Nat} {v1 v2 : NaiveTime}
    (hi : ¬ i < 9) (hp : parseHM ((line.drop s).take (i - s)) = some v2) :
    findStep line i ⟨1, some v1, none, s, 0⟩ =
      .ok (decide (i > 11), ⟨2, some v1, some v2, s, i⟩) := by
  have h1 : findStepStart line i 2 ⟨2, some v1, none, s, 0⟩ =
      .ok ⟨2, some v1, none, s, 0⟩ :=
    findStepStart_skip (by omega) _ _ _
  have h2 : findStepEnd line i 2 ⟨2, some v1, none, s, 0⟩ = .ok ⟨2, some v1, some v2, s, i⟩ := by
    unfold findStepEnd
    rw [if_pos ⟨rfl, rfl⟩, if_neg hi, hp]
  simp [findStep, h1, h2]

theorem findStep_second_err {line : List Char} {i s : Nat} {v1 : NaiveTime} (hi : i < 9) :
    findStep line i ⟨1, some v1, none, s, 0⟩ =
      .error (TimeError.timeNotFound "End time not found") := by
  have h1 : findStepStart line i 2 ⟨2, some v1, none, s, 0⟩ =
      .ok ⟨2, some v1, none, s, 0⟩ :=
    findStepStart_skip (by omega) _ _ _
  have h2 : findStepEnd line i 2 ⟨2, some v1, none, s, 0⟩ =
      .error (TimeError.timeNotFound "End time not found") := by
    unfold findStepEnd
    rw [if_pos ⟨rfl, rfl⟩, if_pos hi]
  simp [findStep, h1, h2]

theorem find_duration_loop_error {line : List Char} {e : TimeError}
    (h : findLoop line 0 line ⟨0, none, none, 0, 0⟩ = .error e) :
    find_duration line = .error e := by
  unfold find_duration
  rw [h]

theorem find_duration_loop_ok {line : List Char} {st : FDState}
    (h : findLoop line 0 line ⟨0, none, none, 0, 0⟩ = .ok st) :
    find_duration line = durationResult st := by
  unfold find_duration
  rw [h]

theorem durationResult_ok {st : FDState} {v1 v2 : NaiveTime} (h2 : 2 ≤ st.numSpaces)
    (h3 : st.startTime = some v1) (h4 : st.endTime = some v2) :
    durationResult st = .ok (st.endSpace, ⟨v1, v2⟩) := by
  unfold durationResult
  rw [if_neg (by omega), h3, h4]

theorem durationResult_lt2 {st : FDState} (h : st.numSpaces < 2) :
    durationResult st =
      .error (TimeError.timeNotFound "Neither start or end time not found") := by
  unfold durationResult
  rw [if_pos h]

theorem find_duration_ok {t1 t2 : List Char} {v1 v2 : NaiveTime} (desc : List Char)
    (hs1 : ∀ c ∈ t1, c ≠ ' ') (hs2 : ∀ c ∈ t2, c ≠ ' ')
    (hl1 : 4 ≤ t1.length) (hl1' : t1.length ≤ 11)
    (hl2 : 9 ≤ t1.length + 1 + t2.length)
    (hp1 : parseHM t1 = some v1) (hp2 : parseHM (' ' :: t2) = some v2) :
    find_duration (t1 ++ (' ' :: (t2 ++ (' ' :: desc)))) =
      .ok (t1.length + 1 + t2.length, ⟨v1, v2⟩) := by
  have htake : (t1 ++ (' ' :: (t2 ++ (' ' :: desc)))).take t1.length = t1 := List.take_left t1 _
  have hp1' : parseHM ((t1 ++ (' ' :: (t2 ++ (' ' :: desc)))).take t1.length) = some v1 := by
    rw [htake]; exact hp1
  have hdrop : (t1 ++ (' ' :: (t2 ++ (' ' :: desc)))).drop t1.length =
      ' ' :: (t2 ++ (' ' :: desc)) :=
    List.drop_left t1 _
  have hslice : ((t1 ++ (' ' :: (t2 ++ (' ' :: desc)))).drop t1.length).take
      (t1.length + 1 + t2.length - t1.length) = ' ' :: t2 := by
    rw [hdrop]
    have harith : t1.length + 1 + t2.length - t1.length = t2.length + 1 := by omega
    rw [harith, List.take_succ_cons, List.take_left]
  have hp2' : parseHM (((t1 ++ (' ' :: (t2 ++ (' ' :: desc)))).drop t1.length).take
      (t1.length + 1 + t2.length - t1.length)) = some v2 := by
    rw [hslice]; exact hp2
  by_cases hbrk : t1.length + 1 + t2.length > 11
  · have hwalk : findLoop (t1 ++ (' ' :: (t2 ++ (' ' :: desc)))) 0
        (t1 ++ (' ' :: (t2 ++ (' ' :: desc)))) ⟨0, none, none, 0, 0⟩ =
        .ok ⟨2, some v1, some v2, t1.length, t1.length + 1 + t2.length⟩ := by
      rw [findLoop_no_space _ t1 hs1 0 _ _]
      simp only [Nat.zero_add]
      rw [findLoop_cons_space, findStep_first (by omega) hp1',
        decide_eq_false (by omega : ¬ t1.length > 11)]
      simp only [Bool.false_eq_true, if_false]
      rw [findLoop_no_space _ t2 hs2 _ _ _]
      rw [findLoop_cons_space, @findStep_second (t1 ++ (' ' :: (t2 ++ (' ' :: desc))))
        (t1.length + 1 + t2.length) t1.length v1 v2 (by omega) hp2',
        decide_eq_true hbrk]
      rfl
    rw [find_duration_loop_ok hwalk]
    exact durationResult_ok (Nat.le_refl 2) rfl rfl
  · obtain ⟨k, hk, hk2⟩ := findLoop_post (t1 ++ (' ' :: (t2 ++ (' ' :: desc)))) desc
      (t1.length + 1 + t2.length + 1)
      ⟨2, some v1, some v2, t1.length, t1.length + 1 + t2.length⟩ (Nat.le_refl 2)
    have hwalk : findLoop (t1 ++ (' ' :: (t2 ++ (' ' :: desc)))) 0
        (t1 ++ (' ' :: (t2 ++ (' ' :: desc)))) ⟨0, none, none, 0, 0⟩ =
        .ok { numSpaces := k, startTime := some v1, endTime := some v2,
              startSpace := t1.length, endSpace := t1.length + 1 + t2.length } := by
      rw [findLoop_no_space _ t1 hs1 0 _ _]
      simp only [Nat.zero_add]
      rw [findLoop_cons_space, findStep_first (by omega) hp1',
        decide_eq_false (by omega : ¬ t1.length > 11)]
      simp only [Bool.false_eq_true, if_false]
      rw [findLoop_no_space _ t2 hs2 _ _ _]
      rw [findLoop_cons_space, @findStep_second (t1 ++ (' ' :: (t2 ++ (' ' :: desc))))
        (t1.length + 1 + t2.length) t1.length v1 v2 (by omega) hp2',
        decide_eq_false hbrk]
      simp only [Bool.false_eq_true, if_false]
      exact hk
    rw [find_duration_loop_ok hwalk]
    exact durationResult_ok (show 2 ≤ k from hk2) rfl rfl

theorem find_duration_start_err {seg : List Char} (rest : List Char)
    (hs : ∀ c ∈ seg, c ≠ ' ') (hlen : seg.length < 4) :
    find_duration (seg ++ (' ' :: rest)) =
      .error (TimeError.timeNotFound "Start time not found") := by
  apply find_duration_loop_error
  rw [findLoop_no_space _ seg hs 0 _ _]
  simp only [Nat.zero_add]
  rw [findLoop_cons_space, findStep_first_err hlen]

theorem find_duration_end_err {t1 seg2 : List Char} (rest : List Char) {v1 : NaiveTime}
    (hs1 : ∀ c ∈ t1, c ≠ ' ') (hs2 : ∀ c ∈ seg2, c ≠ ' ')
    (hl1 : 4 ≤ t1.length) (hp1 : parseHM t1 = some v1)
    (hl2 : t1.length + 1 + seg2.length < 9) :
    find_duration (t1 ++ (' ' :: (seg2 ++ (' ' :: rest)))) =
      .error (TimeError.timeNotFound "End time not found") := by
  have htake : (t1 ++ (' ' :: (seg2 ++ (' ' :: rest)))).take t1.length = t1 :=
    List.take_left t1 _
  have hp1' : parseHM ((t1 ++ (' ' :: (seg2 ++ (' ' :: rest)))).take t1.length) = some v1 := by
    rw [htake]; exact hp1
  apply find_duration_loop_error
  rw [findLoop_no_space _ t1 hs1 0 _ _]
  simp only [Nat.zero_add]
  rw [findLoop_cons_space, findStep_first (by omega) hp1',
    decide_eq_false (by omega : ¬ t1.length > 11)]
  simp only [Bool.false_eq_true, if_false]
  rw [findLoop_no_space _ seg2 hs2 _ _ _]
  rw [findLoop_cons_space, findStep_second_err (by omega)]

theorem find_duration_one_space {t1 seg2 : List Char} {v1 : NaiveTime}
    (hs1 : ∀ c ∈ t1, c ≠ ' ') (hs2 : ∀ c ∈ seg2, c ≠ ' ')
    (hl1 : 4 ≤ t1.length) (hp1 : parseHM t1 = some v1) :
    find_duration (t1 ++ (' ' :: seg2)) =
      .error (TimeError.timeNotFound "Neither start or end time not found") := by
  have htake : (t1 ++ (' ' :: seg2)).take t1.length = t1 := List.take_left t1 _
  have hp1' : parseHM ((t1 ++ (' ' :: seg2)).take t1.length) = some v1 := by
    rw [htake]; exact hp1
  have hwalk : findLoop (t1 ++ (' ' :: seg2)) 0 (t1 ++ (' ' :: seg2)) ⟨0, none, none, 0, 0⟩ =
      .ok ⟨1, some v1, none, t1.length, 0⟩ := by
    rw [findLoop_no_space _ t1 hs1 0 _ _]
    simp only [Nat.zero_add]
    rw [findLoop_cons_space, findStep_first (by omega) hp1']
    by_cases hbrk : t1.length > 11
    · rw [decide_eq_true hbrk]
      rfl
    · rw [decide_eq_false hbrk]
      simp only [Bool.false_eq_true, if_false]
      exact findLoop_all_not_space _ seg2 hs2 _ _
  rw [find_duration_loop_ok hwalk]
  exact durationResult_lt2 Nat.one_lt_two

theorem find_duration_lt2 {l : List Char} (h : countSpaces l < 2) :
    ∀ r, find_duration l ≠ .ok r := by
  intro r hok
  unfold find_duration at hok
  cases hloop : findLoop l 0 l ⟨0, none, none, 0, 0⟩ with
  | error e => rw [hloop] at hok; cases hok
  | ok st =>
    rw [hloop] at hok
    have hok' : durationResult st = .ok r := hok
    have hle : st.numSpaces ≤ 0 + countSpaces l := findLoop_numSpaces_le l l 0 _ _ hloop
    rw [durationResult_lt2 (by omega)] at hok'
    cases hok'

theorem countSpaces_eq_zero {l : List Char} (h : countSpaces l = 0) : ∀ c ∈ l, c ≠ ' ' := by
  induction l with
  | nil => intro c hc; simp at hc
  | cons a as ih =>
    intro c hc
    by_cases ha : a = ' '
    · subst ha
      rw [countSpaces_cons_space] at h
      exact absurd h (by omega)
    · rw [countSpaces_cons_not_space ha] at h
      rcases List.mem_cons.mp hc with rfl | hmem
      · exact ha
      · exact ih h c hmem

theorem find_duration_no_space {l : List Char} (h : ∀ c ∈ l, c ≠ ' ') :
    find_duration l =
      .error (TimeError.timeNotFound "Neither start or end time not found") := by
  unfold find_duration
  rw [findLoop_all_not_space l l h 0 _]
  rfl

/-! ### The line loop of parse_time -/

theorem parseStep_skip {line : List Char} (st : Option NaiveDate × Time)
    (h : startsWithSlashes line = true ∨ line = [] ∨ line.length < 9) :
    parseStep st line = .ok st := by
  rcases h with h | h | h
  · simp [parseStep, h]
  · subst h; simp [parseStep]
  · unfold parseStep
    by_cases hc : (startsWithSlashes line || line.isEmpty) = true
    · rw [if_pos hc]
    · rw [if_neg hc, if_pos h]

theorem parseStep_date {line : List Char} {d : NaiveDate} (st : Option NaiveDate × Time)
    (h0 : startsWithSlashes line = false) (h1 : line ≠ []) (h2 : ¬ line.length < 9)
    (hd : parseDate line = some d) :
    parseStep st line = .ok (some d, st.2) := by
  unfold parseStep
  rw [if_neg (by simp [h0, h1]), if_neg h2, hd]

theorem parseStep_entry {line : List Char} {d : NaiveDate} {t : Time} {idx : Nat}
    {dur : Duration}
    (h0 : startsWithSlashes line = false) (h1 : line ≠ []) (h2 : ¬ line.length < 9)
    (hd : parseDate line = none) (hf : find_duration line = .ok (idx, dur)) :
    parseStep (some d, t) line =
      .ok (some d, ⟨insertEntry t.entries d
        ⟨d, dur.start, dur.«end», rustTrim (line.drop idx)⟩⟩) := by
  unfold parseStep
  rw [if_neg (by simp [h0, h1]), if_neg h2, hd, hf]

theorem parseStep_entry_drop {line : List Char} {t : Time} {idx : Nat} {dur : Duration}
    (h0 : startsWithSlashes line = false) (h1 : line ≠ []) (h2 : ¬ line.length < 9)
    (hd : parseDate line = none) (hf : find_duration line = .ok (idx, dur)) :
    parseStep (none, t) line = .ok (none, t) := by
  unfold parseStep
  rw [if_neg (by simp [h0, h1]), if_neg h2, hd, hf]

theorem parseStep_entry_err {line : List Char} {e : TimeError} (st : Option NaiveDate × Time)
    (h0 : startsWithSlashes line = false) (h1 : line ≠ []) (h2 : ¬ line.length < 9)
    (hd : parseDate line = none) (hf : find_duration line = .error e) :
    parseStep st line = .error e := by
  unfold parseStep
  rw [if_neg (by simp [h0, h1]), if_neg h2, hd, hf]

theorem parseSteps_nil (st : Option NaiveDate × Time) : parseSteps st [] = .ok st := rfl

theorem parseSteps_cons_ok {st st' : Option NaiveDate × Time} {l : List Char}
    (h : parseStep st l = .ok st') (ls : List (List Char)) :
    parseSteps st (l :: ls) = parseSteps st' ls := by
  simp only [parseSteps]
  rw [h]

theorem parseSteps_cons_err {st : Option NaiveDate × Time} {l : List Char} {e : TimeError}
    (h : parseStep st l = .error e) (ls : List (List Char)) :
    parseSteps st (l :: ls) = .error e := by
  simp only [parseSteps]
  rw [h]

/-! ### The log invariant (C10) -/

/-- Invariant of the accumulated map: every key holds a non-empty vector
and every stored entry's `date` field equals its key. -/
def LogWF (t : Time) : Prop :=
  ∀ p ∈ t.entries, p.2 ≠ [] ∧ ∀ e ∈ p.2, e.date = p.1

theorem insertEntry_nil (d : NaiveDate) (e : TimeEntry) :
    insertEntry [] d e = [(d, [e])] := rfl

theorem insertEntry_cons_eq (k : NaiveDate) (es : List TimeEntry)
    (rest : List (NaiveDate × List TimeEntry)) (e : TimeEntry) :
    insertEntry ((k, es) :: rest) k e = (k, es ++ [e]) :: rest := by
  simp [insertEntry]

theorem insertEntry_cons_ne {k d : NaiveDate} (hk : k ≠ d) (es : List TimeEntry)
    (rest : List (NaiveDate × List TimeEntry)) (e : TimeEntry) :
    insertEntry ((k, es) :: rest) d e = (k, es) :: insertEntry rest d e := by
  simp [insertEntry, hk]

theorem insertEntry_wf :
    ∀ (A : List (NaiveDate × List TimeEntry)) (d : NaiveDate) (e : TimeEntry),
      (∀ p ∈ A, p.2 ≠ [] ∧ ∀ x ∈ p.2, x.date = p.1) → e.date = d →
      ∀ p ∈ insertEntry A d e, p.2 ≠ [] ∧ ∀ x ∈ p.2, x.date = p.1 := by
  intro A
  induction A with
  | nil =>
    intro d e _ he p hp
    rw [insertEntry_nil] at hp
    simp only [List.mem_singleton] at hp
    subst hp
    refine ⟨by simp, ?_⟩
    intro x hx
    simp only [List.mem_singleton] at hx
    subst hx
    exact he
  | cons a rest ih =>
    obtain ⟨k, es⟩ := a
    intro d e hA he p hp
    by_cases hk : k = d
    · subst hk
      rw [insertEntry_cons_eq] at hp
      simp only [List.mem_cons] at hp
      rcases hp with hp | hp
      · rw [hp]
        refine ⟨by simp, ?_⟩
        intro x hx
        rcases List.mem_append.mp hx with hx | hx
        · exact (hA (k, es) (by simp)).2 x hx
        · simp only [List.mem_singleton] at hx
          subst hx
          exact he
      · exact hA p (List.mem_cons_of_mem _ hp)
    · rw [insertEntry_cons_ne hk] at hp
      simp only [List.mem_cons] at hp
      rcases hp with hp | hp
      · rw [hp]
        exact hA (k, es) (by simp)
      · exact ih d e (fun q hq => hA q (List.mem_cons_of_mem _ hq)) he p hp

theorem logWF_insert {A : List (NaiveDate × List TimeEntry)} {d : NaiveDate}
    {s f : NaiveTime} {ds : List Char} (hw : LogWF ⟨A⟩) :
    LogWF ⟨insertEntry A d ⟨d, s, f, ds⟩⟩ :=
  fun p hp => insertEntry_wf A d ⟨d, s, f, ds⟩ hw rfl p hp

theorem parseStep_wf {st st' : Option NaiveDate × Time} {l : List Char}
    (h : parseStep st l = .ok st') (hw : LogWF st.2) : LogWF st'.2 := by
  unfold parseStep at h
  split at h
  · simp only [Except.ok.injEq] at h; subst h; exact hw
  · split at h
    · simp only [Except.ok.injEq] at h; subst h; exact hw
    · split at h
      · simp only [Except.ok.injEq] at h; subst h; exact hw
      · split at h
        · cases h
        · split at h
          · simp only [Except.ok.injEq] at h; subst h; exact hw
          · simp only [Except.ok.injEq] at h
            subst h
            exact logWF_insert hw

theorem parseSteps_wf :
    ∀ (ls : List (List Char)) (st st' : Option NaiveDate × Time),
      parseSteps st ls = .ok st' → LogWF st.2 → LogWF st'.2 := by
  intro ls
  induction ls with
  | nil =>
    intro st st' h hw
    rw [parseSteps_nil] at h
    simp only [Except.ok.injEq] at h
    subst h
    exact hw
  | cons l ls ih =>
    intro st st' h hw
    cases hstep : parseStep st l with
    | error e => rw [parseSteps_cons_err hstep] at h; cases h
    | ok st1 =>
      rw [parseSteps_cons_ok hstep] at h
      exact ih st1 st' h (parseStep_wf hstep hw)

theorem parse_time_wf {contents : List Char} {t : Time}
    (h : parse_time contents = .ok t) : LogWF t := by
  unfold parse_time at h
  cases hsteps : parseSteps (none, ⟨[]⟩) (rustLines contents) with
  | error e => rw [hsteps] at h; cases h
  | ok st =>
    rw [hsteps] at h
    simp only [Except.ok.injEq] at h
    subst h
    exact parseSteps_wf _ _ _ hsteps (by intro p hp; simp at hp)

/-! ### Facts about rendered lines -/

theorem startsWithSlashes_cons {c : Char} (h : c ≠ '/') (rest : List Char) :
    startsWithSlashes (c :: rest) = false := by
  cases rest with
  | nil => rfl
  | cons c' r => simp [startsWithSlashes, h]

theorem formatHM_length (v : NaiveTime) : (formatHM v).length = 5 := rfl

theorem formatHM_no_space (v : NaiveTime) : ∀ c ∈ formatHM v, c ≠ ' ' := by
  intro c hc
  simp only [formatHM, pad2, List.mem_append, List.mem_cons, List.mem_singleton,
    List.not_mem_nil, or_false] at hc
  rcases hc with (h | h) | h | (h | h) <;> subst h
  · exact digitChar_ne_space _ (mod10_lt _)
  · exact digitChar_ne_space _ (mod10_lt _)
  · decide
  · exact digitChar_ne_space _ (mod10_lt _)
  · exact digitChar_ne_space _ (mod10_lt _)

theorem formatHM_no_lf (v : NaiveTime) : '\n' ∉ formatHM v := by
  intro hc
  simp only [formatHM, pad2, List.mem_append, List.mem_cons, List.mem_singleton,
    List.not_mem_nil, or_false] at hc
  rcases hc with (h | h) | h | (h | h)
  · exact digitChar_ne_lf _ (mod10_lt _) h.symm
  · exact digitChar_ne_lf _ (mod10_lt _) h.symm
  · cases h
  · exact digitChar_ne_lf _ (mod10_lt _) h.symm
  · exact digitChar_ne_lf _ (mod10_lt _) h.symm

theorem formatHM_head (v : NaiveTime) :
    formatHM v = digitChar (v.hour / 10 % 10) :: (digitChar (v.hour % 10) ::
      (':' :: pad2 v.minute)) := by
  simp [formatHM, pad2]

theorem renderTimeEntry_shape (e : TimeEntry) :
    renderTimeEntry e = formatHM e.start ++
      (' ' :: (formatHM e.«end» ++ (' ' :: e.description))) := by
  simp [renderTimeEntry, List.append_assoc]

theorem renderTimeEntry_slashes (e : TimeEntry) :
    startsWithSlashes (renderTimeEntry e) = false := by
  rw [renderTimeEntry_shape, formatHM_head]
  exact startsWithSlashes_cons (digitChar_ne_slash _ (mod10_lt _)) _

theorem renderTimeEntry_ne_nil (e : TimeEntry) : renderTimeEntry e ≠ [] := by
  rw [renderTimeEntry_shape, formatHM_head]
  simp

theorem renderTimeEntry_length (e : TimeEntry) :
    (renderTimeEntry e).length = 12 + e.description.length := by
  rw [renderTimeEntry_shape]
  simp [formatHM_length]
  omega

theorem find_duration_renderTimeEntry {d : NaiveDate} {e : TimeEntry}
    (hc : canonEntry d e) :
    find_duration (renderTimeEntry e) = .ok (11, ⟨e.start, e.«end»⟩) := by
  obtain ⟨_, hv1, hv2, _, _⟩ := hc
  rw [renderTimeEntry_shape]
  have h := @find_duration_ok (formatHM e.start) (formatHM e.«end») e.start e.«end»
    e.description (formatHM_no_space _) (formatHM_no_space _)
    (by rw [formatHM_length]; omega) (by rw [formatHM_length]; omega)
    (by rw [formatHM_length, formatHM_length]; omega)
    (parseHM_formatHM hv1) (by rw [parseHM_cons_space]; exact parseHM_formatHM hv2)
  rw [formatHM_length, formatHM_length] at h
  exact h

theorem renderTimeEntry_desc {e : TimeEntry} (htrim : rustTrim e.description = e.description) :
    rustTrim ((renderTimeEntry e).drop 11) = e.description := by
  have hshape : renderTimeEntry e =
      (formatHM e.start ++ (' ' :: formatHM e.«end»)) ++ (' ' :: e.description) := by
    rw [renderTimeEntry_shape]
    simp [List.append_assoc]
  have hlen : (formatHM e.start ++ (' ' :: formatHM e.«end»)).length = 11 := by
    simp [formatHM_length]
  rw [hshape, show (11 : Nat) = (formatHM e.start ++ (' ' :: formatHM e.«end»)).length
    from hlen.symm, List.drop_left, rustTrim_cons_space, htrim]

theorem renderDate_shape {d : NaiveDate} (hd : validDate d) :
    renderDate d = pad4 d.year.toNat ++ ('-' :: (pad2 d.month ++ ('-' :: pad2 d.day))) := by
  obtain ⟨hy0, hy9, _, _, _, _⟩ := hd
  have hyt : d.year.toNat ≤ 9999 := by omega
  simp [renderDate, formatYear, not_lt.mpr hy0, hyt, List.append_assoc]

theorem renderDate_slashes {d : NaiveDate} (hd : validDate d) :
    startsWithSlashes (renderDate d) = false := by
  rw [renderDate_shape hd, pad4_cons]
  exact startsWithSlashes_cons (digitChar_ne_slash _ (mod10_lt _)) _

theorem renderDate_ne_nil {d : NaiveDate} (hd : validDate d) : renderDate d ≠ [] := by
  rw [renderDate_shape hd, pad4_cons]
  simp

theorem renderDate_length {d : NaiveDate} (hd : validDate d) :
    (renderDate d).length = 10 := by
  rw [renderDate_shape hd]
  simp [pad4_length, pad2_length]

theorem parseStep_renderDate {d : NaiveDate} (hd : validDate d)
    (st : Option NaiveDate × Time) :
    parseStep st (renderDate d) = .ok (some d, st.2) :=
  parseStep_date st (renderDate_slashes hd) (renderDate_ne_nil hd)
    (by rw [renderDate_length hd]; omega) (parseDate_renderDate hd)

theorem parseStep_renderEntry {d : NaiveDate} {e : TimeEntry} (hc : canonEntry d e)
    (dcur : NaiveDate) (A : List (NaiveDate × List TimeEntry)) :
    parseStep (some dcur, ⟨A⟩) (renderTimeEntry e) =
      .ok (some dcur, ⟨insertEntry A dcur ⟨dcur, e.start, e.«end», e.description⟩⟩) := by
  have hfd := find_duration_renderTimeEntry hc
  have hdesc := renderTimeEntry_desc hc.2.2.2.1
  have h := @parseStep_entry (renderTimeEntry e) dcur ⟨A⟩ 11 ⟨e.start, e.«end»⟩
    (renderTimeEntry_slashes e)
    (renderTimeEntry_ne_nil e) (by rw [renderTimeEntry_length]; omega)
    (parseDate_renderTimeEntry e) hfd
  rw [h, hdesc]

/-! ### Lines of a rendered log -/

/-- The lines of the rendered entries of one date block. -/
def entryLines (es : List TimeEntry) : List (List Char) := es.map renderTimeEntry

/-- The lines of one rendered date block. -/
def blockLines (b : NaiveDate × List TimeEntry) : List (List Char) :=
  renderDate b.1 :: entryLines b.2

/-- The lines of a rendered log. -/
def logLines (bs : List (NaiveDate × List TimeEntry)) : List (List Char) :=
  concatMap blockLines bs

theorem concatMap_append (f : α → List β) :
    ∀ (xs ys : List α), concatMap f (xs ++ ys) = concatMap f xs ++ concatMap f ys := by
  intro xs ys
  induction xs with
  | nil => simp [concatMap]
  | cons a as ih => simp [concatMap, ih]

theorem concatMap_map (f : β → List γ) (g : α → β) :
    ∀ (l : List α), concatMap f (l.map g) = concatMap (fun x => f (g x)) l := by
  intro l
  induction l with
  | nil => rfl
  | cons a as ih => simp [concatMap, ih]

theorem mem_concatMap {f : α → List β} {x : β} :
    ∀ {l : List α}, x ∈ concatMap f l → ∃ a ∈ l, x ∈ f a := by
  intro l
  induction l with
  | nil => intro h; simp [concatMap] at h
  | cons a as ih =>
    intro h
    rcases List.mem_append.mp h with h | h
    · exact ⟨a, by simp, h⟩
    · obtain ⟨b, hb, hx⟩ := ih h
      exact ⟨b, by simp [hb], hx⟩

theorem renderPairs_eq_join :
    ∀ bs : List (NaiveDate × List TimeEntry),
      renderPairs bs = concatMap (fun l => l ++ ['\n']) (logLines bs) := by
  intro bs
  induction bs with
  | nil => rfl
  | cons b bs ih =>
    obtain ⟨d, es⟩ := b
    have hblock : renderBlock (d, es) =
        concatMap (fun l => l ++ ['\n']) (blockLines (d, es)) := by
      show renderDate d ++ '\n' :: concatMap (fun e => renderTimeEntry e ++ ['\n']) es =
        concatMap (fun l => l ++ ['\n']) (renderDate d :: entryLines es)
      rw [show concatMap (fun l => l ++ ['\n']) (renderDate d :: entryLines es) =
        (renderDate d ++ ['\n']) ++ concatMap (fun l => l ++ ['\n']) (entryLines es) from rfl]
      rw [entryLines, concatMap_map]
      simp [List.append_assoc]
    show renderBlock (d, es) ++ renderPairs bs = _
    rw [ih, hblock]
    rw [show logLines ((d, es) :: bs) = blockLines (d, es) ++ logLines bs from rfl]
    rw [concatMap_append]

theorem stripCR_renderDate {d : NaiveDate} (hd : validDate d) :
    stripCR (renderDate d) = renderDate d := by
  apply stripCR_of_getLast
  intro c hc
  rw [renderDate_shape hd] at hc
  rw [List.getLast?_append_of_ne_nil _ (by simp)] at hc
  rw [show ('-' :: (pad2 d.month ++ ('-' :: pad2 d.day))) =
    ('-' :: pad2 d.month) ++ ('-' :: pad2 d.day) from by simp] at hc
  rw [List.getLast?_append_of_ne_nil _ (by simp)] at hc
  rw [show ('-' :: pad2 d.day) = ('-' :: [digitChar (d.day / 10 % 10)]) ++
    [digitChar (d.day % 10)] from by simp [pad2]] at hc
  rw [List.getLast?_append_of_ne_nil _ (by simp)] at hc
  simp only [List.getLast?_singleton, Option.some_inj] at hc
  subst hc
  exact digitChar_ne_cr _ (mod10_lt _)

theorem renderDate_no_lf {d : NaiveDate} (hd : validDate d) : '\n' ∉ renderDate d := by
  intro hmem
  rw [renderDate_shape hd] at hmem
  simp only [pad4, pad2, List.mem_append, List.mem_cons, List.mem_singleton,
    List.not_mem_nil, or_false] at hmem
  rcases hmem with (h | h | h | h) | h | (h | h) | h | (h | h)
  all_goals first
    | (exact digitChar_ne_lf _ (mod10_lt _) h.symm)
    | cases h

theorem stripCR_renderTimeEntry {d : NaiveDate} {e : TimeEntry} (hc : canonEntry d e) :
    stripCR (renderTimeEntry e) = renderTimeEntry e := by
  apply stripCR_of_getLast
  intro c hcl
  have hshape : renderTimeEntry e =
      (formatHM e.start ++ (' ' :: formatHM e.«end»)) ++ (' ' :: e.description) := by
    rw [renderTimeEntry_shape]
    simp [List.append_assoc]
  rw [hshape, List.getLast?_append_of_ne_nil _ (by simp)] at hcl
  cases hdesc : e.description with
  | nil =>
    rw [hdesc] at hcl
    simp only [List.getLast?_singleton, Option.some_inj] at hcl
    subst hcl
    decide
  | cons x xs =>
    rw [hdesc] at hcl
    rw [show (' ' :: (x :: xs)) = [' '] ++ (x :: xs) from rfl,
      List.getLast?_append_of_ne_nil _ (by simp)] at hcl
    have hlast : e.description.getLast? = some c := by rw [hdesc]; exact hcl
    have hnws := rustTrim_fixed_getLast hc.2.2.2.1 hlast
    intro hcon
    subst hcon
    exact absurd hnws (by decide)

theorem renderTimeEntry_no_lf {d : NaiveDate} {e : TimeEntry} (hc : canonEntry d e) :
    '\n' ∉ renderTimeEntry e := by
  intro hmem
  rw [renderTimeEntry_shape] at hmem
  rcases List.mem_append.mp hmem with h | h
  · exact formatHM_no_lf _ h
  · simp only [List.mem_cons] at h
    rcases h with h | h
    · cases h
    · rcases List.mem_append.mp h with h | h
      · exact formatHM_no_lf _ h
      · simp only [List.mem_cons] at h
        rcases h with h | h
        · cases h
        · exact hc.2.2.2.2 h

theorem rustLines_renderPairs {bs : List (NaiveDate × List TimeEntry)}
    (hc : ∀ b ∈ bs, canonBlock b) :
    rustLines (renderPairs bs) = logLines bs := by
  rw [renderPairs_eq_join]
  apply rustLines_concat
  intro l hl
  obtain ⟨b, hb, hlb⟩ := mem_concatMap hl
  obtain ⟨d, es⟩ := b
  have hcb := hc (d, es) hb
  rcases List.mem_cons.mp hlb with rfl | hle
  · exact ⟨renderDate_no_lf hcb.1, stripCR_renderDate hcb.1⟩
  · obtain ⟨e, he, rfl⟩ := List.mem_map.mp hle
    have hce := hcb.2.2 e he
    exact ⟨renderTimeEntry_no_lf hce, stripCR_renderTimeEntry hce⟩

/-! ### Parsing a rendered canonical log -/

theorem insertEntry_fresh :
    ∀ (A : List (NaiveDate × List TimeEntry)) {d : NaiveDate} (e : TimeEntry),
      d ∉ logKeys A → insertEntry A d e = A ++ [(d, [e])] := by
  intro A
  induction A with
  | nil => intro d e _; rfl
  | cons a rest ih =>
    obtain ⟨k, es⟩ := a
    intro d e hk
    have hne : k ≠ d := by
      intro hcon
      exact hk (by simp [logKeys, hcon])
    rw [insertEntry_cons_ne hne, ih e (by
      intro hcon
      exact hk (by simp [logKeys] at hcon ⊢; exact Or.inr hcon))]
    rfl

theorem insertEntry_append_last :
    ∀ (A : List (NaiveDate × List TimeEntry)) {d : NaiveDate} (es0 : List TimeEntry)
      (e : TimeEntry), d ∉ logKeys A →
      insertEntry (A ++ [(d, es0)]) d e = A ++ [(d, es0 ++ [e])] := by
  intro A
  induction A with
  | nil => intro d es0 e _; simp [insertEntry_cons_eq]
  | cons a rest ih =>
    obtain ⟨k, es⟩ := a
    intro d es0 e hk
    have hne : k ≠ d := by
      intro hcon
      exact hk (by simp [logKeys, hcon])
    rw [List.cons_append, insertEntry_cons_ne hne, ih es0 e (by
      intro hcon
      exact hk (by simp [logKeys] at hcon ⊢; exact Or.inr hcon))]
    rfl

theorem parseSteps_append_ok :
    ∀ (xs : List (List Char)) {st st' : Option NaiveDate × Time},
      parseSteps st xs = .ok st' → ∀ ys,
      parseSteps st (xs ++ ys) = parseSteps st' ys := by
  intro xs
  induction xs with
  | nil =>
    intro st st' h ys
    rw [parseSteps_nil] at h
    simp only [Except.ok.injEq] at h
    subst h
    rfl
  | cons l ls ih =>
    intro st st' h ys
    cases hstep : parseStep st l with
    | error e => rw [parseSteps_cons_err hstep] at h; cases h
    | ok st1 =>
      rw [parseSteps_cons_ok hstep] at h
      rw [List.cons_append, parseSteps_cons_ok hstep]
      exact ih h ys

theorem parseSteps_entryLines :
    ∀ (es : List TimeEntry) {d : NaiveDate} (A : List (NaiveDate × List TimeEntry))
      (es0 : List TimeEntry),
      (∀ x ∈ es, canonEntry d x) → d ∉ logKeys A →
      parseSteps (some d, ⟨A ++ [(d, es0)]⟩) (entryLines es) =
        .ok (some d, ⟨A ++ [(d, es0 ++ es)]⟩) := by
  intro es
  induction es with
  | nil =>
    intro d A es0 _ _
    rw [show entryLines [] = [] from rfl, parseSteps_nil]
    simp
  | cons x es ih =>
    intro d A es0 hc hk
    have hcx := hc x (by simp)
    have hstep := parseStep_renderEntry hcx d (A ++ [(d, es0)])
    have hex : (⟨d, x.start, x.«end», x.description⟩ : TimeEntry) = x := by
      obtain ⟨hdate, _, _, _, _⟩ := hcx
      cases x
      simp only [] at hdate
      rw [hdate]
    rw [hex, insertEntry_append_last A es0 x hk] at hstep
    rw [show entryLines (x :: es) = renderTimeEntry x :: entryLines es from rfl]
    rw [parseSteps_cons_ok hstep]
    rw [ih A (es0 ++ [x]) (fun y hy => hc y (by simp [hy])) hk]
    simp [List.append_assoc]

theorem parseSteps_block {d : NaiveDate} {es : List TimeEntry}
    (hb : canonBlock (d, es)) (A : List (NaiveDate × List TimeEntry))
    (hk : d ∉ logKeys A) (dOpt : Option NaiveDate) :
    parseSteps (dOpt, ⟨A⟩) (blockLines (d, es)) = .ok (some d, ⟨A ++ [(d, es)]⟩) := by
  obtain ⟨hv, hne, hce⟩ := hb
  obtain ⟨x, es', rfl⟩ : ∃ x es', es = x :: es' := by
    cases es with
    | nil => exact absurd rfl hne
    | cons a b => exact ⟨a, b, rfl⟩
  rw [show blockLines (d, x :: es') = renderDate d :: entryLines (x :: es') from rfl]
  rw [parseSteps_cons_ok (parseStep_renderDate hv (dOpt, ⟨A⟩))]
  have hcx := hce x (by simp)
  have hstep := parseStep_renderEntry hcx d A
  have hex : (⟨d, x.start, x.«end», x.description⟩ : TimeEntry) = x := by
    obtain ⟨hdate, _, _, _, _⟩ := hcx
    cases x
    simp only [] at hdate
    rw [hdate]
  rw [hex, insertEntry_fresh A x hk] at hstep
  rw [show entryLines (x :: es') = renderTimeEntry x :: entryLines es' from rfl]
  rw [parseSteps_cons_ok hstep]
  rw [parseSteps_entryLines es' A [x] (fun y hy => hce y (by simp [hy])) hk]
  rfl

theorem logKeys_append (A B : List (NaiveDate × List TimeEntry)) :
    logKeys (A ++ B) = logKeys A ++ logKeys B := by
  simp [logKeys]

theorem parseSteps_log :
    ∀ (bs : List (NaiveDate × List TimeEntry)) (A : List (NaiveDate × List TimeEntry))
      (dOpt : Option NaiveDate),
      (∀ b ∈ bs, canonBlock b) → (bs.map Prod.fst).Nodup →
      (∀ b ∈ bs, b.1 ∉ logKeys A) →
      ∃ dOpt', parseSteps (dOpt, ⟨A⟩) (logLines bs) = .ok (dOpt', ⟨A ++ bs⟩) := by
  intro bs
  induction bs with
  | nil =>
    intro A dOpt _ _ _
    refine ⟨dOpt, ?_⟩
    rw [show logLines [] = [] from rfl, parseSteps_nil]
    simp
  | cons b bs ih =>
    intro A dOpt hc hnd hdisj
    obtain ⟨d, es⟩ := b
    rw [show logLines ((d, es) :: bs) = blockLines (d, es) ++ logLines bs from rfl]
    have hblock := parseSteps_block (hc (d, es) (by simp)) A
      (hdisj (d, es) (by simp)) dOpt
    rw [parseSteps_append_ok _ hblock]
    have hnd' : (bs.map Prod.fst).Nodup := (List.nodup_cons.mp hnd).2
    have hdmem : d ∉ bs.map Prod.fst := by
      have := (List.nodup_cons.mp hnd).1
      simpa using this
    have hdisj' : ∀ b ∈ bs, b.1 ∉ logKeys (A ++ [(d, es)]) := by
      intro b hb
      rw [logKeys_append]
      intro hmem
      rcases List.mem_append.mp hmem with hmem | hmem
      · exact hdisj b (by simp [hb]) hmem
      · simp only [logKeys, List.map_cons, List.map_nil, List.mem_singleton] at hmem
        exact hdmem (hmem ▸ List.mem_map_of_mem Prod.fst hb)
    obtain ⟨dOpt', hsteps⟩ := ih (A ++ [(d, es)]) (some d)
      (fun q hq => hc q (by simp [hq])) hnd' hdisj'
    refine ⟨dOpt', ?_⟩
    rw [hsteps]
    simp [List.append_assoc]

/-- Parsing the canonical rendering of a canonical log reproduces exactly
that log, with the date blocks in first-insertion order. -/
theorem parse_time_render {bs : List (NaiveDate × List TimeEntry)}
    (h : canonLog bs) : parse_time (renderPairs bs) = .ok ⟨bs⟩ := by
  obtain ⟨hc, hnd⟩ := h
  unfold parse_time
  rw [rustLines_renderPairs hc]
  obtain ⟨dOpt', hsteps⟩ := parseSteps_log bs [] none hc hnd
    (by intro b _ hmem; simp [logKeys] at hmem)
  rw [List.nil_append] at hsteps
  rw [hsteps]

/-! ### Entry lines of a successful parse (C2 support) -/

theorem parseSteps_ok_entries :
    ∀ (ls : List (List Char)) (st st' : Option NaiveDate × Time),
      parseSteps st ls = .ok st' →
      ∀ l ∈ ls, startsWithSlashes l = false → l ≠ [] → ¬ l.length < 9 →
        parseDate l = none → ∃ r, find_duration l = .ok r := by
  intro ls
  induction ls with
  | nil => intro st st' _ l hl; simp at hl
  | cons l0 ls ih =>
    intro st st' h l hl h0 h1 h2 hd
    cases hstep : parseStep st l0 with
    | error e => rw [parseSteps_cons_err hstep] at h; cases h
    | ok st1 =>
      rw [parseSteps_cons_ok hstep] at h
      rcases List.mem_cons.mp hl with rfl | hl
      · cases hfd : find_duration l with
        | ok r => exact ⟨r, rfl⟩
        | error e =>
          rw [parseStep_entry_err st h0 h1 h2 hd hfd] at hstep
          cases hstep
      · exact ih st1 st' h l hl h0 h1 h2 hd

theorem parse_time_ok_steps {contents : List Char} {t : Time}
    (h : parse_time contents = .ok t) :
    ∃ st, parseSteps (none, ⟨[]⟩) (rustLines contents) = .ok st ∧ st.2 = t := by
  unfold parse_time at h
  cases hsteps : parseSteps (none, ⟨[]⟩) (rustLines contents) with
  | error e => rw [hsteps] at h; cases h
  | ok st =>
    rw [hsteps] at h
    simp only [Except.ok.injEq] at h
    exact ⟨st, rfl, h⟩

/-! ### Helpers for claim C3 -/

theorem timeTok_no_space {t : List Char} {v : NaiveTime} (h : TimeTok t v) :
    ∀ c ∈ t, c ≠ ' ' := by
  rcases h with ⟨h10, rfl⟩ | rfl
  · intro c hc
    simp only [List.mem_cons] at hc
    rcases hc with rfl | rfl | hc
    · exact digitChar_ne_space _ h10
    · decide
    · simp only [pad2, List.mem_cons, List.mem_singleton, List.not_mem_nil, or_false] at hc
      rcases hc with rfl | rfl <;> exact digitChar_ne_space _ (mod10_lt _)
  · exact formatHM_no_space v

theorem timeTok_length {t : List Char} {v : NaiveTime} (h : TimeTok t v) :
    t.length = 4 ∨ t.length = 5 := by
  rcases h with ⟨_, rfl⟩ | rfl
  · left; rfl
  · right; exact formatHM_length v

theorem drop_second_space (t1 t2 desc : List Char) :
    (t1 ++ (' ' :: (t2 ++ (' ' :: desc)))).drop (t1.length + 1 + t2.length) =
      ' ' :: desc := by
  have hshape : t1 ++ (' ' :: (t2 ++ (' ' :: desc))) =
      (t1 ++ (' ' :: t2)) ++ (' ' :: desc) := by
    simp [List.append_assoc]
  have hlen : (t1 ++ (' ' :: t2)).length = t1.length + 1 + t2.length := by
    simp
    omega
  rw [hshape, ← hlen, List.drop_left]

/-! ### Concrete inputs used by the claims -/

/-- The two-date canonical log used against the round-trip claim. -/
def c1Blocks : List (NaiveDate × List TimeEntry) :=
  [(⟨2020, 1, 1⟩, [⟨⟨2020, 1, 1⟩, ⟨3, 0⟩, ⟨4, 0⟩, String.toList "alpha"⟩]),
   (⟨2020, 1, 2⟩, [⟨⟨2020, 1, 2⟩, ⟨5, 0⟩, ⟨6, 0⟩, String.toList "beta"⟩])]

/-- The same two date blocks in the opposite iteration order. -/
def c1Swapped : List (NaiveDate × List TimeEntry) :=
  [(⟨2020, 1, 2⟩, [⟨⟨2020, 1, 2⟩, ⟨5, 0⟩, ⟨6, 0⟩, String.toList "beta"⟩]),
   (⟨2020, 1, 1⟩, [⟨⟨2020, 1, 1⟩, ⟨3, 0⟩, ⟨4, 0⟩, String.toList "alpha"⟩])]

/-- The Babbage example input of the spec (and of the library's test). -/
def c4Input : List Char :=
  String.toList "1822-01-15\n// comment\n3:00 4:00 Sketched ideas for a new machine\n4:00 11:00 Created the first computer\n15:30 17:30 Decided on the name, Difference Engine\n"

def c4Date : NaiveDate := ⟨1822, 1, 15⟩

def c4Entries : List TimeEntry :=
  [⟨c4Date, ⟨3, 0⟩, ⟨4, 0⟩, String.toList "Sketched ideas for a new machine"⟩,
   ⟨c4Date, ⟨4, 0⟩, ⟨11, 0⟩, String.toList "Created the first computer"⟩,
   ⟨c4Date, ⟨15, 30⟩, ⟨17, 30⟩, String.toList "Decided on the name, Difference Engine"⟩]

/-- The expected rendering of the Babbage example, with one-digit hours
zero-padded. -/
def c4Expected : List Char :=
  String.toList "1822-01-15\n03:00 04:00 Sketched ideas for a new machine\n04:00 11:00 Created the first computer\n15:30 17:30 Decided on the name, Difference Engine\n"

/-- A line with one space (at index 3) and at least 9 characters. -/
def c5Line : List Char := String.toList "abc defgh"

/-- A line whose second space is at index 3 (< 9) but whose first space is
at index 1 (< 4). -/
def c7Line : List Char := String.toList "a b cdefghij"

/-! ### The claims -/

/-- Claim C1 (counterexample): the round-trip claim fails as stated.  The
two-date canonical text `renderPairs c1Blocks` parses back to exactly
`c1Blocks`, but the `HashMap` iteration order underlying `Display` is an
arbitrary permutation of the stored blocks, and rendering under the swapped
order (a valid iteration order, being a permutation of the entries) is not
byte-identical to the input. -/
theorem c1_order_counterexample :
    canonLog c1Blocks ∧
    parse_time (renderPairs c1Blocks) = .ok ⟨c1Blocks⟩ ∧
    c1Swapped.Perm (Time.entries ⟨c1Blocks⟩) ∧
    renderPairs c1Swapped ≠ renderPairs c1Blocks := by
  refine ⟨by decide, by decide, ?_, by decide⟩
  exact List.Perm.swap _ _ _

/-- Claim C1 (amended): for every canonical log (valid dates and times,
pairwise-distinct dates, each date followed by at least one entry with a
trimmed newline-free description), parsing the canonical text succeeds with
exactly that log, and re-rendering it with the date blocks in
first-insertion order reproduces the text byte-identically. -/
theorem c1_roundtrip (bs : List (NaiveDate × List TimeEntry)) (h : canonLog bs) :
    parse_time (renderPairs bs) = .ok ⟨bs⟩ ∧
    renderPairs (Time.entries ⟨bs⟩) = renderPairs bs :=
  ⟨parse_time_render h, rfl⟩

/-- Claim C1 (witness): the round trip at the concrete two-date canonical
log. -/
theorem c1_roundtrip_witness :
    parse_time (renderPairs c1Blocks) = .ok ⟨c1Blocks⟩ ∧
    renderPairs (Time.entries ⟨c1Blocks⟩) = renderPairs c1Blocks :=
  c1_roundtrip c1Blocks (by decide)

/-- Claim C2: the parse aborts on the first failing entry line.  First
conjunct: if a non-skipped, non-date line fails duration extraction, the
whole line loop returns that error immediately, for every starting state
and regardless of the remaining lines (so no partial `Time` is produced
and no later line is processed).  Second conjunct: conversely, a successful
`parse_time` implies duration extraction succeeded on every non-skipped
non-date line of the input. -/
theorem c2_fail_fast :
    (∀ (st : Option NaiveDate × Time) (l : List Char) (ls : List (List Char))
        (e : TimeError),
      startsWithSlashes l = false → l ≠ [] → ¬ l.length < 9 →
      parseDate l = none → find_duration l = .error e →
      parseSteps st (l :: ls) = .error e) ∧
    (∀ (contents : List Char) (t : Time), parse_time contents = .ok t →
      ∀ l ∈ rustLines contents, startsWithSlashes l = false → l ≠ [] →
        ¬ l.length < 9 → parseDate l = none → ∃ r, find_duration l = .ok r) := by
  constructor
  · intro st l ls e h0 h1 h2 hd hf
    exact parseSteps_cons_err (parseStep_entry_err st h0 h1 h2 hd hf) ls
  · intro contents t h l hl h0 h1 h2 hd
    obtain ⟨st, hsteps, _⟩ := parse_time_ok_steps h
    exact parseSteps_ok_entries _ _ _ hsteps l hl h0 h1 h2 hd

/-- Claim C2 (witness): a malformed line aborts the loop at once, with the
following well-formed line never processed. -/
theorem c2_fail_fast_witness :
    parseSteps (none, ⟨[]⟩)
      [String.toList "garbage!!", String.toList "3:00 4:00 fine"] =
      .error (TimeError.timeNotFound "Neither start or end time not found") :=
  c2_fail_fast.1 (none, ⟨[]⟩) (String.toList "garbage!!")
    [String.toList "3:00 4:00 fine"] _ (by decide) (by decide) (by decide)
    (by decide) (by decide)

/-- Claim C3: on a valid entry line built from two time tokens (`H:MM` or
`HH:MM`, valid 24-hour values) separated by single spaces from an arbitrary
description, `find_duration` succeeds, its `Duration` holds exactly the two
parsed tokens, the returned offset is the character index of the second
space, and trimming everything after that offset yields the trimmed
description, which is what `parse_time` stores. -/
theorem c3_valid_entry (t1 t2 desc : List Char) (v1 v2 : NaiveTime)
    (hv1 : validTime v1) (hv2 : validTime v2)
    (ht1 : TimeTok t1 v1) (ht2 : TimeTok t2 v2) :
    find_duration (t1 ++ (' ' :: (t2 ++ (' ' :: desc)))) =
      .ok (t1.length + 1 + t2.length, ⟨v1, v2⟩) ∧
    rustTrim ((t1 ++ (' ' :: (t2 ++ (' ' :: desc)))).drop (t1.length + 1 + t2.length)) =
      rustTrim desc := by
  have hl1 := timeTok_length ht1
  have hl2 := timeTok_length ht2
  constructor
  · exact find_duration_ok desc (timeTok_no_space ht1) (timeTok_no_space ht2)
      (by omega) (by omega) (by omega) (parseHM_timeTok ht1 hv1)
      (by rw [parseHM_cons_space]; exact parseHM_timeTok ht2 hv2)
  · rw [drop_second_space, rustTrim_cons_space]

/-- Claim C3 (witness): the valid entry line `3:00 17:05 rest` evaluated
concretely. -/
theorem c3_valid_entry_witness :
    find_duration (String.toList "3:00" ++
        (' ' :: (String.toList "17:05" ++ (' ' :: String.toList "rest")))) =
      .ok (10, ⟨⟨3, 0⟩, ⟨17, 5⟩⟩) ∧
    rustTrim ((String.toList "3:00" ++
        (' ' :: (String.toList "17:05" ++ (' ' :: String.toList "rest")))).drop 10) =
      rustTrim (String.toList "rest") :=
  c3_valid_entry (String.toList "3:00") (String.toList "17:05")
    (String.toList "rest") ⟨3, 0⟩ ⟨17, 5⟩ (by decide) (by decide)
    (by decide) (by decide)

/-- Claim C4: the Babbage example parses to a single date 1822-01-15
holding its three entries in source order, and rendering the result (under
any iteration order of the one-key map, hence under every possible
`Display` output) yields the expected zero-padded text. -/
theorem c4_concrete :
    parse_time c4Input = .ok ⟨[(c4Date, c4Entries)]⟩ ∧
    ∀ π : List (NaiveDate × List TimeEntry), π.Perm [(c4Date, c4Entries)] →
      renderPairs π = c4Expected := by
  constructor
  · decide
  · intro π hπ
    rw [List.perm_singleton.mp hπ]
    decide

/-- Claim C4 (witness): the rendering instantiated at the only possible
iteration order of the singleton map. -/
theorem c4_concrete_witness :
    parse_time c4Input = .ok ⟨[(c4Date, c4Entries)]⟩ ∧
    renderPairs [(c4Date, c4Entries)] = c4Expected :=
  ⟨c4_concrete.1, c4_concrete.2 [(c4Date, c4Entries)] (List.Perm.refl _)⟩

/-- Claim C5 (counterexample): the line `abc defgh` has fewer than two
spaces, is 9 characters long (so it is not skipped), yet duration
extraction fails with the start-time error, not the neither-found error:
its single space is at index 3 < 4, and that width check fires first. -/
theorem c5_counterexample :
    countSpaces c5Line < 2 ∧ ¬ c5Line.length < 9 ∧
    startsWithSlashes c5Line = false ∧ parseDate c5Line = none ∧
    find_duration c5Line = .error (TimeError.timeNotFound "Start time not found") ∧
    find_duration c5Line ≠
      .error (TimeError.timeNotFound "Neither start or end time not found") := by
  decide

/-- Claim C5 (amended): a line with fewer than two spaces always makes
duration extraction fail, and the error is the "neither start or end time
not found" one when the line has no space at all, or when its single space
is at index at least 4 with a prefix that parses as a time; with a single
space the failure can instead be the start-time width error or a time
parse error, as the counterexample shows. -/
theorem c5_fewer_than_two_spaces :
    (∀ l : List Char, countSpaces l < 2 →
      (∀ r, find_duration l ≠ .ok r) ∧
      (countSpaces l = 0 →
        find_duration l =
          .error (TimeError.timeNotFound "Neither start or end time not found"))) ∧
    (∀ (t1 seg2 : List Char) (v : NaiveTime),
      (∀ c ∈ t1, c ≠ ' ') → (∀ c ∈ seg2, c ≠ ' ') → 4 ≤ t1.length →
      parseHM t1 = some v →
      find_duration (t1 ++ (' ' :: seg2)) =
        .error (TimeError.timeNotFound "Neither start or end time not found")) := by
  constructor
  · intro l h
    exact ⟨find_duration_lt2 h, fun h0 => find_duration_no_space (countSpaces_eq_zero h0)⟩
  · intro t1 seg2 v hs1 hs2 hl1 hp1
    exact find_duration_one_space hs1 hs2 hl1 hp1

/-- Claim C5 (witness): the no-space line `abcdefghi` and the one-space
line `3:00 desc!` both yield the neither-found error. -/
theorem c5_fewer_than_two_spaces_witness :
    find_duration (String.toList "abcdefghi") =
      .error (TimeError.timeNotFound "Neither start or end time not found") ∧
    find_duration (String.toList "3:00" ++ (' ' :: String.toList "desc!")) =
      .error (TimeError.timeNotFound "Neither start or end time not found") :=
  ⟨(c5_fewer_than_two_spaces.1 (String.toList "abcdefghi") (by decide)).2 (by decide),
   c5_fewer_than_two_spaces.2 (String.toList "3:00") (String.toList "desc!")
     ⟨3, 0⟩ (by decide) (by decide) (by decide) (by decide)⟩

/-- Claim C6: whenever the first space of a line occurs at an index below
4, `find_duration` fails with the "Start time not found" error — the width
check fires before any attempt to parse the prefix as a time (the prefix
may even be a chrono-parseable time such as `3:0`, as in the witness
line `3:0 4:00 desc`). -/
theorem c6_first_space_lt4 (seg rest : List Char)
    (hs : ∀ c ∈ seg, c ≠ ' ') (hlen : seg.length < 4) :
    find_duration (seg ++ (' ' :: rest)) =
      .error (TimeError.timeNotFound "Start time not found") :=
  find_duration_start_err rest hs hlen

/-- Claim C6 (witness): the concrete line `3:0 4:00 desc` (first space at
index 3). -/
theorem c6_first_space_lt4_witness :
    find_duration (String.toList "3:0 4:00 desc") =
      .error (TimeError.timeNotFound "Start time not found") := by
  rw [(by decide : String.toList "3:0 4:00 desc" =
    String.toList "3:0" ++ (' ' :: String.toList "4:00 desc"))]
  exact c6_first_space_lt4 (String.toList "3:0") (String.toList "4:00 desc")
    (by decide) (by decide)

/-- Claim C7 (counterexample): the line `a b cdefghij` has its second space
at index 3 (< 9), yet `find_duration` fails with the "Start time not
found" error, not the "End time not found" error, because the first space
(at index 1 < 4) fails the start-time width check first. -/
theorem c7_counterexample :
    c7Line = ['a'] ++ (' ' :: (['b'] ++ (' ' :: String.toList "cdefghij"))) ∧
    (['a'] : List Char).length + 1 + (['b'] : List Char).length < 9 ∧
    find_duration c7Line = .error (TimeError.timeNotFound "Start time not found") ∧
    find_duration c7Line ≠ .error (TimeError.timeNotFound "End time not found") := by
  decide

/-- Claim C7 (amended): when the first space is at index at least 4 and the
prefix before it parses as a time (so the first-space checks pass), a
second space at an index below 9 makes `find_duration` fail with the
"End time not found" error. -/
theorem c7_second_space_lt9 (t1 seg2 rest : List Char) (v1 : NaiveTime)
    (hs1 : ∀ c ∈ t1, c ≠ ' ') (hs2 : ∀ c ∈ seg2, c ≠ ' ')
    (hl1 : 4 ≤ t1.length) (hp1 : parseHM t1 = some v1)
    (hl2 : t1.length + 1 + seg2.length < 9) :
    find_duration (t1 ++ (' ' :: (seg2 ++ (' ' :: rest)))) =
      .error (TimeError.timeNotFound "End time not found") :=
  find_duration_end_err rest hs1 hs2 hl1 hp1 hl2

/-- Claim C7 (witness): the line `3:00 ab cdef` (second space at index 7). -/
theorem c7_second_space_lt9_witness :
    find_duration (String.toList "3:00 ab cdef") =
      .error (TimeError.timeNotFound "End time not found") := by
  rw [(by decide : String.toList "3:00 ab cdef" =
    String.toList "3:00" ++ (' ' :: (String.toList "ab" ++ (' ' :: String.toList "cdef"))))]
  exact c7_second_space_lt9 (String.toList "3:00") (String.toList "ab")
    (String.toList "cdef") ⟨3, 0⟩ (by decide) (by decide) (by decide)
    (by decide) (by decide)

/-- Claim C8: a line that starts with `//`, is empty, or is shorter than 9
characters is skipped: the step leaves the state (current date and
accumulated log) unchanged and produces no error, and the line loop simply
moves on to the remaining lines. -/
theorem c8_skip (st : Option NaiveDate × Time) (l : List Char) (ls : List (List Char))
    (h : startsWithSlashes l = true ∨ l = [] ∨ l.length < 9) :
    parseStep st l = .ok st ∧ parseSteps st (l :: ls) = parseSteps st ls :=
  ⟨parseStep_skip st h, parseSteps_cons_ok (parseStep_skip st h) ls⟩

/-- Claim C8 (witness): a comment line with arbitrary content is skipped. -/
theorem c8_skip_witness :
    parseStep (none, ⟨[]⟩) (String.toList "// arbitrary content 12:34!") =
      .ok (none, ⟨[]⟩) ∧
    parseSteps (none, ⟨[]⟩) [String.toList "// arbitrary content 12:34!"] =
      parseSteps (none, ⟨[]⟩) [] :=
  c8_skip (none, ⟨[]⟩) (String.toList "// arbitrary content 12:34!") []
    (Or.inl (by decide))

/-- Claim C9: a well-formed entry line that is reached before any date
header (current date still `none`) raises no error and is silently
dropped: the step succeeds, the accumulated log is unchanged, no date
context is created, and the loop continues with the remaining lines. -/
theorem c9_entry_before_date (t : Time) (l : List Char) (ls : List (List Char))
    (idx : Nat) (dur : Duration)
    (h0 : startsWithSlashes l = false) (h1 : l ≠ []) (h2 : ¬ l.length < 9)
    (hd : parseDate l = none) (hf : find_duration l = .ok (idx, dur)) :
    parseStep (none, t) l = .ok (none, t) ∧
    parseSteps (none, t) (l :: ls) = parseSteps (none, t) ls :=
  ⟨parseStep_entry_drop h0 h1 h2 hd hf,
   parseSteps_cons_ok (parseStep_entry_drop h0 h1 h2 hd hf) ls⟩

/-- Claim C9 (witness): the valid entry line `3:00 4:00 stuff` before any
date header is dropped without error. -/
theorem c9_entry_before_date_witness :
    parseStep (none, ⟨[]⟩) (String.toList "3:00 4:00 stuff") = .ok (none, ⟨[]⟩) ∧
    parseSteps (none, ⟨[]⟩) [String.toList "3:00 4:00 stuff"] =
      parseSteps (none, ⟨[]⟩) [] :=
  c9_entry_before_date ⟨[]⟩ (String.toList "3:00 4:00 stuff") [] 9
    ⟨⟨3, 0⟩, ⟨4, 0⟩⟩ (by decide) (by decide) (by decide) (by decide) (by decide)

/-- Claim C10: in every `Time` returned successfully by `parse_time`,
every date key maps to a non-empty entry list, and every entry stored
under a key has its `date` field equal to that key. -/
theorem c10_entries_invariant (contents : List Char) (t : Time)
    (h : parse_time contents = .ok t) :
    ∀ p ∈ t.entries, p.2 ≠ [] ∧ ∀ e ∈ p.2, e.date = p.1 :=
  parse_time_wf h

/-- Claim C10 (witness): the invariant instantiated on the concrete parse
of the Babbage example. -/
theorem c10_entries_invariant_witness :
    c4Entries ≠ [] ∧
    (c4Entries.get ⟨0, by decide⟩).date = c4Date ∧
    (c4Entries.get ⟨1, by decide⟩).date = c4Date ∧
    (c4Entries.get ⟨2, by decide⟩).date = c4Date := by
  have h := c10_entries_invariant c4Input ⟨[(c4Date, c4Entries)]⟩ (by decide)
    (c4Date, c4Entries) (by decide)
  exact ⟨h.1, h.2 _ (by decide), h.2 _ (by decide), h.2 _ (by decide)⟩

end Timetxt
